import Mathlib

/-!
Verification development for the WattWise BOM power analyzer.

The pipeline under study lives in `src/services/geminiService.ts`
(`cleanAndParseJSON`, `withRetry`, `analyzeBOM`, `reEstimateItems`),
`src/components/Dashboard.tsx` (`summary`, `groupedModels`,
`handleBulkReEstimate`, `handleReEstimateAll`) and the application shell
(`handleFileSelect`).  Strings are modelled as `List Char`; the JavaScript
built-in `JSON.parse` is modelled by a recursive-descent parser `jsonParse`
covering the JSON fragment the payloads use (objects, arrays, escape-free
strings, integer numbers, booleans, null, whitespace); JavaScript numbers are
modelled by `Rat`/`Int`/`Nat` as appropriate.
-/

namespace WattWise

/-- JSON values, the parse result type of the modelled `JSON.parse`. -/
inductive JVal where
  | null : JVal
  | bool : Bool → JVal
  | num : Int → JVal
  | str : String → JVal
  | arr : List JVal → JVal
  | obj : List (String × JVal) → JVal

/-- JSON whitespace (the four characters `JSON.parse` skips). -/
def jsWs (c : Char) : Bool := c = ' ' || c = '\t' || c = '\n' || c = '\r'

/-- Drop leading JSON whitespace. -/
def skipWs (s : List Char) : List Char := s.dropWhile jsWs

/-- ASCII digit test. -/
def jDigit (c : Char) : Bool := '0' ≤ c && c ≤ '9'

/-- Body of a JSON string after the opening quote: literal characters up to the
closing quote.  Escape sequences are outside the modelled fragment and fail. -/
def strBody : List Char → Option (List Char × List Char)
  | [] => none
  | c :: cs =>
    if c = '"' then some ([], cs)
    else if c = '\\' then none
    else match strBody cs with
      | none => none
      | some (a, r) => some (c :: a, r)

/-- Consume a maximal run of digits, accumulating the decimal value. -/
def digitsAux : List Char → Nat → (Nat × List Char)
  | [], acc => (acc, [])
  | c :: cs, acc =>
    if jDigit c then digitsAux cs (acc * 10 + (c.toNat - 48)) else (acc, c :: cs)

/-- Parse an integer JSON number (optional minus, one or more digits). -/
def parseNumFrom (s : List Char) : Option (Int × List Char) :=
  match s with
  | [] => none
  | c :: rest =>
    if c = '-' then
      match rest with
      | [] => none
      | c2 :: _ =>
        if jDigit c2 then
          let p := digitsAux rest 0
          some (-(p.1 : Int), p.2)
        else none
    else if jDigit c then
      let p := digitsAux (c :: rest) 0
      some ((p.1 : Int), p.2)
    else none

mutual

/-- Fuel-indexed recursive-descent JSON value parser (model of `JSON.parse`). -/
def parseVal : Nat → List Char → Option (JVal × List Char)
  | 0, _ => none
  | f + 1, s =>
    match skipWs s with
    | [] => none
    | c :: rest =>
      if c = '\x7b' then parseObj f rest
      else if c = '[' then parseArr f rest
      else if c = '"' then
        match strBody rest with
        | some (cs, r) => some (.str ⟨cs⟩, r)
        | none => none
      else if c = 't' then
        match rest with
        | 'r' :: 'u' :: 'e' :: r => some (.bool true, r)
        | _ => none
      else if c = 'f' then
        match rest with
        | 'a' :: 'l' :: 's' :: 'e' :: r => some (.bool false, r)
        | _ => none
      else if c = 'n' then
        match rest with
        | 'u' :: 'l' :: 'l' :: r => some (.null, r)
        | _ => none
      else if c = '-' || jDigit c then
        match parseNumFrom (c :: rest) with
        | some (n, r) => some (.num n, r)
        | none => none
      else none

/-- Parse an array body (the opening bracket already consumed). -/
def parseArr : Nat → List Char → Option (JVal × List Char)
  | 0, _ => none
  | f + 1, s =>
    match skipWs s with
    | [] => none
    | c :: r =>
      if c = ']' then some (.arr [], r)
      else
        match parseVal f s with
        | none => none
        | some (v, r1) =>
          match parseArrTail f r1 with
          | none => none
          | some (vs, r2) => some (.arr (v :: vs), r2)

/-- Parse the continuation of an array after one element. -/
def parseArrTail : Nat → List Char → Option (List JVal × List Char)
  | 0, _ => none
  | f + 1, s =>
    match skipWs s with
    | [] => none
    | c :: r =>
      if c = ']' then some ([], r)
      else if c = ',' then
        match parseVal f r with
        | none => none
        | some (v, r2) =>
          match parseArrTail f r2 with
          | none => none
          | some (vs, r3) => some (v :: vs, r3)
      else none

/-- Parse an object body (the opening brace already consumed). -/
def parseObj : Nat → List Char → Option (JVal × List Char)
  | 0, _ => none
  | f + 1, s =>
    match skipWs s with
    | [] => none
    | c :: r =>
      if c = '\x7d' then some (.obj [], r)
      else if c = '"' then
        match strBody r with
        | none => none
        | some (k, r2) =>
          match skipWs r2 with
          | [] => none
          | c2 :: r3 =>
            if c2 = ':' then
              match parseVal f r3 with
              | none => none
              | some (v, r4) =>
                match parseObjTail f r4 with
                | none => none
                | some (ms, r5) => some (.obj ((⟨k⟩, v) :: ms), r5)
            else none
      else none

/-- Parse the continuation of an object after one member. -/
def parseObjTail : Nat → List Char → Option (List (String × JVal) × List Char)
  | 0, _ => none
  | f + 1, s =>
    match skipWs s with
    | [] => none
    | c :: r =>
      if c = '\x7d' then some ([], r)
      else if c = ',' then
        match skipWs r with
        | [] => none
        | c1 :: r1 =>
          if c1 = '"' then
            match strBody r1 with
            | none => none
            | some (k, r2) =>
              match skipWs r2 with
              | [] => none
              | c2 :: r3 =>
                if c2 = ':' then
                  match parseVal f r3 with
                  | none => none
                  | some (v, r4) =>
                    match parseObjTail f r4 with
                    | none => none
                    | some (ms, r5) => some ((⟨k⟩, v) :: ms, r5)
                else none
          else none
      else none

end

/-- Model of `JSON.parse`: parse one value, then require only trailing
whitespace.  The fuel `2 * length + 2` dominates the recursion depth of any
successful parse (established for serialized payloads below). -/
def jsonParse (s : List Char) : Option JVal :=
  match parseVal (2 * s.length + 2) s with
  | some (v, rest) => if skipWs rest = [] then some v else none
  | none => none

/-! ### String-search utilities (models of the JavaScript string methods) -/

/-- Auxiliary scanner for `String.prototype.indexOf` with a single-character
needle. -/
def idxOfCharAux : List Char → Char → Nat → Option Nat
  | [], _, _ => none
  | c :: cs, t, i => if c = t then some i else idxOfCharAux cs t (i + 1)

/-- Model of `s.indexOf(ch, from)` (result `none` for JavaScript's `-1`). -/
def idxOfChar (s : List Char) (t : Char) (start : Nat) : Option Nat :=
  (idxOfCharAux (s.drop start) t 0).map (· + start)

/-- Auxiliary scanner for substring search. -/
def findSubAux : List Char → List Char → Nat → Option Nat
  | [], pat, i => if pat.isEmpty then some i else none
  | c :: cs, pat, i =>
    if pat.isPrefixOf (c :: cs) then some i else findSubAux cs pat (i + 1)

/-- Model of `s.indexOf(pat)` (result `none` for JavaScript's `-1`). -/
def findSub (s pat : List Char) : Option Nat := findSubAux s pat 0

/-- All indices at which `pat` occurs in `s`. -/
def occs (s pat : List Char) : List Nat :=
  (List.range (s.length + 1)).filter (fun i => pat.isPrefixOf (s.drop i))

/-- Model of `s.lastIndexOf(pat)`: the largest occurrence index, if any. -/
def lastIdx (s pat : List Char) : Option Nat := (occs s pat).max?

/-- Model of `s.substring(a, b)` for `a ≤ b` (characters `[a, b)`). -/
def jsSubstring (s : List Char) (a b : Nat) : List Char := (s.take b).drop a

/-- Case-insensitive character equality (model of the regex `i` flag). -/
def ciEq (a b : Char) : Bool := a.toLower = b.toLower

/-- Case-insensitive prefix test. -/
def isCiPrefix : List Char → List Char → Bool
  | [], _ => true
  | _ :: _, [] => false
  | p :: ps, c :: cs => ciEq c p && isCiPrefix ps cs

/-- Auxiliary scanner for case-insensitive substring search. -/
def findCiAux : List Char → List Char → Nat → Option Nat
  | [], pat, i => if pat.isEmpty then some i else none
  | c :: cs, pat, i =>
    if isCiPrefix pat (c :: cs) then some i else findCiAux cs pat (i + 1)

/-- First case-insensitive occurrence of `pat` in `s`. -/
def findCi (s pat : List Char) : Option Nat := findCiAux s pat 0

/-- Opening reasoning tag `<think>`. -/
def thinkOpen : List Char := ['<', 't', 'h', 'i', 'n', 'k', '>']

/-- Closing reasoning tag `</think>`. -/
def thinkClose : List Char := ['<', '/', 't', 'h', 'i', 'n', 'k', '>']

/-- Model of `content.replace(/<think>[\s\S]*?<\/think>/gi, "")`: repeatedly
remove the leftmost case-insensitive `<think>…</think>` span (lazy match up to
the nearest closing tag); an unclosed opening tag is left in place. -/
def removeThinkAux : Nat → List Char → List Char
  | 0, s => s
  | f + 1, s =>
    match findCi s thinkOpen with
    | none => s
    | some i =>
      let after := s.drop (i + 7)
      match findCi after thinkClose with
      | none => s
      | some j => s.take i ++ removeThinkAux f (after.drop (j + 8))

/-- Remove all `<think>…</think>` spans. -/
def removeThink (s : List Char) : List Char := removeThinkAux s.length s

/-- Model of `s.replace(pat, "")` with a global literal pattern. -/
def replaceAllAux : Nat → List Char → List Char → List Char
  | 0, s, _ => s
  | f + 1, s, pat =>
    match findSub s pat with
    | none => s
    | some i => s.take i ++ replaceAllAux f (s.drop (i + pat.length)) pat

/-- Remove every occurrence of `pat` from `s`. -/
def replaceAll (s pat : List Char) : List Char := replaceAllAux s.length s pat

/-- Markdown fence marker with language tag. -/
def fenceJson : List Char := ['\x60', '\x60', '\x60', 'j', 's', 'o', 'n']

/-- Bare markdown fence marker. -/
def fence3 : List Char := ['\x60', '\x60', '\x60']

/-- Model of `String.prototype.trim` (restricted to the JSON whitespace set,
which covers every payload in scope). -/
def jsTrim (s : List Char) : List Char :=
  ((s.dropWhile jsWs).reverse.dropWhile jsWs).reverse

/-- Steps 1–3 of `cleanAndParseJSON`: strip reasoning tags, strip markdown
fences, trim. -/
def cleanContent (raw : List Char) : List Char :=
  jsTrim (replaceAll (replaceAll (removeThink raw) fenceJson) fence3)

/-- Literal `"items"` (with its quotes), the needle of the repair scan. -/
def itemsNeedle : List Char := ['"', 'i', 't', 'e', 'm', 's', '"']

/-- Literal `},`, the Case-A repair needle. -/
def braceComma : List Char := ['\x7d', ',']

/-- Model of `cleanAndParseJSON` from `src/services/geminiService.ts`:
clean the raw content, attempt a direct parse, and on failure attempt the two
truncation repairs (A: cut at the last `},` and close; B: cut at the last `}`
and close).  `none` models a thrown error. -/
def cleanAndParseJSON (raw : List Char) : Option JVal :=
  let content := cleanContent raw
  match jsonParse content with
  | some v => some v
  | none =>
    match idxOfChar content '\x7b' 0 with
    | none => none
    | some fb =>
      let itemsStart := findSub content itemsNeedle
      let arrayStart :=
        match itemsStart with
        | none => idxOfChar content '[' 0
        | some i => idxOfChar content '[' i
      match itemsStart, arrayStart with
      | some _, some arrS =>
        let attemptA : Option JVal :=
          match lastIdx content braceComma with
          | some lcb =>
            if arrS < lcb then
              jsonParse (jsSubstring content fb (lcb + 1) ++ [']', '\x7d'])
            else none
          | none => none
        match attemptA with
        | some v => some v
        | none =>
          match lastIdx content ['\x7d'] with
          | some lb =>
            if arrS < lb then
              jsonParse (jsSubstring content fb (lb + 1) ++ [']', '\x7d'])
            else none
          | none => none
      | _, _ => none

/-! ### Retry orchestrator (`withRetry` in `src/services/geminiService.ts`) -/

/-- Model of a JavaScript error value as inspected by `withRetry`'s
classification (`status`, `message`, `code`, `instanceof SyntaxError`). -/
structure JsError where
  status : Option Nat := none
  message : String := ""
  code : Option String := none
  isSyntaxError : Bool := false
  deriving DecidableEq

/-- Model of `String.prototype.includes`. -/
def strIncludes (s pat : String) : Bool := (findSub s.toList pat.toList).isSome

/-- Rate-limit classification: `status === 429`, message containing
`rate limit`, or code `rate_limit_exceeded`. -/
def isRateLimit (e : JsError) : Bool :=
  e.status == some 429 || strIncludes e.message ("rate limit") ||
    e.code == some ("rate_limit_exceeded")

/-- Parse-error classification: `SyntaxError` or message containing `JSON`. -/
def isParseError (e : JsError) : Bool :=
  e.isSyntaxError || strIncludes e.message ("JSON")

/-- Network-error classification: message containing `fetch`. -/
def isNetworkError (e : JsError) : Bool := strIncludes e.message ("fetch")

/-- Retryable failure classes of `withRetry`. -/
def isRetryable (e : JsError) : Bool :=
  isRateLimit e || isParseError e || isNetworkError e

/-- Model of `withRetry`, instrumented with the number of invocations of the
wrapped operation.  The wrapped closure is modelled as a function of the
attempt number; the backoff delay doubles per retry (time is not modelled). -/
def withRetryT {T : Type} (fn : Nat → Except JsError T) :
    Nat → Nat → Nat → Except JsError T × Nat
  | retriesLeft, delay, attempt =>
    match fn attempt, retriesLeft with
    | .ok v, _ => (.ok v, 1)
    | .error e, 0 => (.error e, 1)
    | .error e, left + 1 =>
      if isRetryable e then
        let r := withRetryT fn left (delay * 2) (attempt + 1)
        (r.1, r.2 + 1)
      else (.error e, 1)

/-- Result of `withRetry(fn, retriesLeft, delay)` (first attempt number 1). -/
def withRetry {T : Type} (fn : Nat → Except JsError T)
    (retriesLeft delay : Nat) : Except JsError T :=
  (withRetryT fn retriesLeft delay 1).1

/-- Number of times `withRetry(fn, retriesLeft, delay)` invokes `fn`. -/
def withRetryCalls {T : Type} (fn : Nat → Except JsError T)
    (retriesLeft delay : Nat) : Nat :=
  (withRetryT fn retriesLeft delay 1).2

/-! ### Batch analyzer (`analyzeBOM` / `reEstimateItems`) -/

/-- Error thrown by `getAiClient` when the API key is missing. -/
def apiKeyErr : JsError := { message := "API Key is required" }

/-- Error thrown when the completion has no content. -/
def noResponseErr : JsError := { message := "No response from AI" }

/-- Model of the `SyntaxError` re-thrown by `cleanAndParseJSON` when every
parse attempt fails. -/
def syntaxErr : JsError :=
  { isSyntaxError := true, message := "Unexpected end of JSON input" }

/-- JavaScript truthiness on JSON values. -/
def truthy : JVal → Bool
  | .null => false
  | .bool b => b
  | .num n => n != 0
  | .str s => s != ""
  | .arr _ => true
  | .obj _ => true

/-- The `TypeError` thrown by JavaScript property access on `null`. -/
def nullAccessErr (k : String) : JsError :=
  { message := "Cannot read properties of null (reading '" ++ k ++ "')" }

/-- Model of JavaScript property access `v[k]` on a parsed JSON value:
access on `null` throws a `TypeError`; on an object it yields the value of
the last member with that key (`JSON.parse` keeps the last duplicate); on any
other value it yields `undefined` (`none`). -/
def getField : JVal → String → Except JsError (Option JVal)
  | .null, k => .error (nullAccessErr k)
  | .obj ms, k => .ok ((ms.reverse.find? (fun m => m.1 == k)).map (·.2))
  | _, _ => .ok none

/-- Model of `parsed.items || []`: the thrown `TypeError` when `parsed` is
`null`, otherwise the `items` property if present and truthy, otherwise an
empty array. -/
def itemsOrEmpty (parsed : JVal) : Except JsError JVal :=
  match getField parsed ("items") with
  | .error e => .error e
  | .ok (some v) => if truthy v then .ok v else .ok (.arr [])
  | .ok none => .ok (.arr [])

/-- Shared tail of `analyzeBOM` and `reEstimateItems`: the per-attempt backend
outcome (`.error` = rejected request, `.ok none` = null content,
`.ok (some s)` = content string) is checked, sanitized and projected to
`parsed.items || []`, all wrapped in `withRetry`.  The prompt text, row
batching and request construction do not affect this control flow and are not
modelled. -/
def llmItemsCall (apiKey : String)
    (responses : Nat → Except JsError (Option (List Char)))
    (maxRetries : Nat) : Except JsError JVal :=
  if apiKey = "" then .error apiKeyErr
  else
    withRetry (fun attempt =>
      match responses attempt with
      | .error e => .error e
      | .ok none => .error noResponseErr
      | .ok (some content) =>
        if content.isEmpty then .error noResponseErr
        else
          match cleanAndParseJSON content with
          | none => .error syntaxErr
          | some parsed => itemsOrEmpty parsed) maxRetries 2000

/-- Model of `analyzeBOM` (its response handling; the row batch only shapes
the prompt). -/
def analyzeBOM (apiKey : String)
    (responses : Nat → Except JsError (Option (List Char)))
    (maxRetries : Nat) : Except JsError JVal :=
  llmItemsCall apiKey responses maxRetries

/-- Model of `reEstimateItems` (identical response handling). -/
def reEstimateItems (apiKey : String)
    (responses : Nat → Except JsError (Option (List Char)))
    (maxRetries : Nat) : Except JsError JVal :=
  llmItemsCall apiKey responses maxRetries

/-! ### Session state machine (`App.tsx`, `handleFileSelect`) -/

/-- The `AnalysisStatus` enum. -/
inductive AnalysisStatus where
  | IDLE | PARSING | ANALYZING | COMPLETE | ERROR
  deriving DecidableEq

/-- The session state owned by the `App` component (`status`, `results`,
`errorMsg`).  `results` holds whatever `analyzeBOM` resolved with. -/
structure AppState where
  status : AnalysisStatus
  results : JVal
  errorMsg : Option String

/-- Fallback error message used by `handleFileSelect`'s catch block. -/
def msgOrFallback (e : JsError) : String :=
  if e.message = "" then "An unexpected error occurred." else e.message

/-- Model of `handleFileSelect`: guard on the API key, parse the file, fail on
zero rows, run `analyzeBOM`, and end in `COMPLETE` with the analysis or in
`ERROR` with the thrown message.  Intermediate `PARSING`/`ANALYZING` states
are transient; the function returns the final state. -/
def handleFileSelect (apiKey : String)
    (parseOutcome : Except JsError (List String))
    (responses : Nat → Except JsError (Option (List Char)))
    (maxRetries : Nat) (s : AppState) : AppState :=
  if apiKey = "" then
    { s with errorMsg := some ("Please enter your OpenRouter API Key.") }
  else
    match parseOutcome with
    | .error e =>
      { status := .ERROR, results := s.results, errorMsg := some (msgOrFallback e) }
    | .ok rawRows =>
      if rawRows.isEmpty then
        { status := .ERROR, results := s.results,
          errorMsg := some ("No data found in the file.") }
      else
        match analyzeBOM apiKey responses maxRetries with
        | .error e =>
          { status := .ERROR, results := s.results,
            errorMsg := some (msgOrFallback e) }
        | .ok analysis =>
          { status := .COMPLETE, results := analysis, errorMsg := none }

/-! ### Aggregation engine (`Dashboard.tsx`) -/

/-- The `PowerAnalysisResult` record (fields as consumed by the Dashboard;
JavaScript numbers modelled as `Rat`). -/
structure PowerAnalysisResult where
  partNumber : String
  description : String
  modelFamily : String
  quantity : Rat
  category : String
  typicalPowerWatts : Rat
  typicalSource : String
  typicalPowerCitation : Option String
  maxPowerWatts : Rat
  maxSource : String
  maxPowerCitation : Option String
  heatDissipationBTU : Rat
  heatSource : String
  methodology : String
  sourceUrl : Option String
  sourceTitle : Option String
  matchedModelSnippet : Option String
  confidence : String
  notes : String
  isIgnored : Bool
  deriving DecidableEq

/-- The `summary` memo value. -/
structure Summary where
  totalTypicalKW : Rat
  totalMaxKW : Rat
  totalBTU : Rat
  breakdown : List (String × Rat)
  deriving DecidableEq

/-- Stable insertion of `x` into a list sorted descending by `key`: `x` goes
after every strictly larger element and before every `≤` element. -/
def insertDescBy {α : Type} (key : α → Rat) (x : α) : List α → List α
  | [] => [x]
  | y :: ys => if key y ≤ key x then x :: y :: ys else y :: insertDescBy key x ys

/-- Stable descending sort by `key`: model of JavaScript's (stable)
`Array.prototype.sort` with comparator `(a, b) => key(b) - key(a)`. -/
def sortDescBy {α : Type} (key : α → Rat) : List α → List α
  | [] => []
  | x :: xs => insertDescBy key x (sortDescBy key xs)

/-- Accumulate one category contribution into an insertion-ordered category
map (model of the `Map` in `summary`). -/
def addCat : List (String × Rat) → String → Rat → List (String × Rat)
  | [], k, v => [(k, v)]
  | (k0, v0) :: rest, k, v =>
    if k0 = k then (k0, v0 + v) :: rest else (k0, v0) :: addCat rest k v

/-- Model of the `summary` memo: totals over non-ignored records and the
category breakdown sorted descending by value. -/
def summary (results : List PowerAnalysisResult) : Summary :=
  let activeResults := results.filter (fun r => !r.isIgnored)
  let totalTypicalWatts :=
    activeResults.foldl (fun acc curr => acc + curr.typicalPowerWatts * curr.quantity) 0
  let totalMaxWatts :=
    activeResults.foldl (fun acc curr => acc + curr.maxPowerWatts * curr.quantity) 0
  let totalBTU :=
    activeResults.foldl (fun acc curr => acc + curr.heatDissipationBTU * curr.quantity) 0
  let categoryMap :=
    activeResults.foldl (fun m r => addCat m r.category (r.maxPowerWatts * r.quantity)) []
  { totalTypicalKW := totalTypicalWatts / 1000
    totalMaxKW := totalMaxWatts / 1000
    totalBTU := totalBTU
    breakdown := sortDescBy (fun p => p.2) categoryMap }

/-- A `GroupedModel` tile: family key, totals over non-ignored members, and
the member list tagged with original indices. -/
structure GroupedModel where
  modelFamily : String
  totalTypical : Rat
  totalMax : Rat
  totalBTU : Rat
  items : List (Nat × PowerAnalysisResult)
  category : String
  deriving DecidableEq

/-- Group key: `item.modelFamily || "Miscellaneous Parts"`. -/
def famKey (r : PowerAnalysisResult) : String :=
  if r.modelFamily = "" then "Miscellaneous Parts" else r.modelFamily

/-- A fresh group created for `item` (totals start at zero). -/
def emptyGroup (item : PowerAnalysisResult) : GroupedModel :=
  { modelFamily := famKey item, totalTypical := 0, totalMax := 0, totalBTU := 0,
    items := [], category := item.category }

/-- Push `item` onto a group and, unless ignored, add its contributions to the
group totals. -/
def groupAdd (g : GroupedModel) (idx : Nat) (item : PowerAnalysisResult) :
    GroupedModel :=
  let g' := { g with items := g.items ++ [(idx, item)] }
  if item.isIgnored then g'
  else
    { g' with
      totalTypical := g'.totalTypical + item.typicalPowerWatts * item.quantity
      totalMax := g'.totalMax + item.maxPowerWatts * item.quantity
      totalBTU := g'.totalBTU + item.heatDissipationBTU * item.quantity }

/-- Insert one record into the insertion-ordered group list (model of the
`Map.has`/`set`/`get` sequence in `groupedModels`). -/
def addToGroups : List GroupedModel → Nat → PowerAnalysisResult → List GroupedModel
  | [], idx, item => [groupAdd (emptyGroup item) idx item]
  | g :: rest, idx, item =>
    if g.modelFamily = famKey item then groupAdd g idx item :: rest
    else g :: addToGroups rest idx item

/-- The group list in first-seen (Map insertion) order, before sorting. -/
def groupsInOrder (results : List PowerAnalysisResult) : List GroupedModel :=
  (results.enum).foldl (fun gs p => addToGroups gs p.1 p.2) []

/-- Model of the `groupedModels` memo: groups in insertion order, sorted
descending by `totalMax` with JavaScript's stable sort. -/
def groupedModels (results : List PowerAnalysisResult) : List GroupedModel :=
  sortDescBy (fun g => g.totalMax) (groupsInOrder results)

/-- One iteration of the merge loop of `handleBulkReEstimate`: `p.1` is the
loop counter `i`, `p.2` the selected original index; the slot is replaced with
`updatedItems[i]` when that element exists (records are always truthy
objects), otherwise the accumulator is unchanged. -/
def mergeStep (updated : List PowerAnalysisResult)
    (acc : List PowerAnalysisResult) (p : Nat × Nat) : List PowerAnalysisResult :=
  match updated[p.1]? with
  | some u => acc.set p.2 u
  | none => acc

/-- Merge loop of `handleBulkReEstimate` over the enumerated selection. -/
def bulkMergeFold (results : List PowerAnalysisResult) (indices : List Nat)
    (updated : List PowerAnalysisResult) : List PowerAnalysisResult :=
  (indices.enum).foldl (mergeStep updated) results

/-- Model of `handleBulkReEstimate`: no-op on an empty selection, results kept
intact when the call rejects, otherwise the merge loop above. -/
def handleBulkReEstimate (results : List PowerAnalysisResult)
    (selected : List Nat)
    (callOutcome : Except JsError (List PowerAnalysisResult)) :
    List PowerAnalysisResult :=
  if selected.isEmpty then results
  else
    match callOutcome with
    | .error _ => results
    | .ok updatedItems => bulkMergeFold results selected updatedItems

/-- Outcome of the re-estimate-all flow: the final result set and whether
`onUpdateResults` was invoked. -/
structure ReEstimateAllOutcome where
  results : List PowerAnalysisResult
  updateInvoked : Bool
  deriving DecidableEq

/-- Model of `handleReEstimateAll`: guard on an empty result set (the confirm
dialog is modelled as accepted), keep the results when the call rejects, and
replace them only when the resolved list is non-empty. -/
def handleReEstimateAll (results : List PowerAnalysisResult)
    (callOutcome : Except JsError (List PowerAnalysisResult)) :
    ReEstimateAllOutcome :=
  if results.isEmpty then { results := results, updateInvoked := false }
  else
    match callOutcome with
    | .error _ => { results := results, updateInvoked := false }
    | .ok updatedItems =>
      if updatedItems.length > 0 then
        { results := updatedItems, updateInvoked := true }
      else { results := results, updateInvoked := false }

/-! ### Sample data for witnesses -/

/-- A sample analyzed record used by witness instantiations. -/
def sampleRec : PowerAnalysisResult :=
  { partNumber := "C9300-48P", description := "switch", modelFamily := "Cisco Catalyst 9300",
    quantity := 2, category := "Network", typicalPowerWatts := 150,
    typicalSource := "Estimation", typicalPowerCitation := none,
    maxPowerWatts := 200, maxSource := "Estimation", maxPowerCitation := none,
    heatDissipationBTU := 683, heatSource := "Formula", methodology := "est",
    sourceUrl := none, sourceTitle := none, matchedModelSnippet := none,
    confidence := "High", notes := "", isIgnored := false }

/-- A rate-limited error (HTTP 429). -/
def rl429 : JsError := { status := some 429, message := "Too Many Requests" }

/-! ### C10 — re-estimate-all keeps the results on an empty response -/

/-- Claim C10: in the re-estimate-all flow, a backend call resolving with an
empty updated-items list leaves the existing result set entirely unchanged and
never invokes the update callback, so a whole-set re-estimation never replaces
a non-empty result set with an empty one. -/
theorem reEstimateAll_empty_keeps_results (results : List PowerAnalysisResult)
    (hne : results ≠ []) :
    (handleReEstimateAll results (.ok [])).results = results ∧
    (handleReEstimateAll results (.ok [])).updateInvoked = false ∧
    ∀ outcome, (handleReEstimateAll results outcome).results ≠ [] := by
  obtain ⟨r, rs, rfl⟩ : ∃ r rs, results = r :: rs := by
    cases results with
    | nil => exact absurd rfl hne
    | cons r rs => exact ⟨r, rs, rfl⟩
  refine ⟨rfl, rfl, ?_⟩
  intro outcome
  cases outcome with
  | error e => simp [handleReEstimateAll]
  | ok updatedItems =>
    cases updatedItems with
    | nil => simp [handleReEstimateAll]
    | cons u us => simp [handleReEstimateAll]

/-- Witness for C10 at a concrete one-record result set. -/
theorem reEstimateAll_empty_keeps_results_witness :
    (handleReEstimateAll [sampleRec] (.ok [])).results = [sampleRec] ∧
    (handleReEstimateAll [sampleRec] (.ok [])).updateInvoked = false ∧
    ∀ outcome, (handleReEstimateAll [sampleRec] outcome).results ≠ [] :=
  reEstimateAll_empty_keeps_results [sampleRec] (by decide)

/-! ### C9 — a missing or null `items` key resolves to an empty array -/

/-- Boundary of C9's object restriction: a backend response whose content is
the well-formed text `null` parses, but the property access `parsed.items`
then throws a `TypeError`, which is not retryable, so `analyzeBOM` rejects
with it — the resolve-with-empty behaviour is specific to object parses. -/
theorem null_content_rejects :
    analyzeBOM ("k") (fun _ => .ok (some (String.toList ("null")))) 3 =
      .error (nullAccessErr ("items")) := by
  rfl

/-- Claim C9: for every backend response whose sanitized parse succeeds and
yields an object with no `items` key (or a null `items` value), `analyzeBOM`
and `reEstimateItems` resolve successfully with an empty array rather than
raising any error. -/
theorem missing_items_resolves_empty (apiKey : String) (content : List Char)
    (ms : List (String × JVal)) (maxRetries : Nat)
    (hk : apiKey ≠ "") (hc : content ≠ [])
    (hp : cleanAndParseJSON content = some (.obj ms))
    (hitems : getField (.obj ms) ("items") = .ok none ∨
      getField (.obj ms) ("items") = .ok (some JVal.null)) :
    analyzeBOM apiKey (fun _ => .ok (some content)) maxRetries = .ok (.arr []) ∧
    reEstimateItems apiKey (fun _ => .ok (some content)) maxRetries = .ok (.arr []) := by
  have hce : content.isEmpty = false := by
    cases content with
    | nil => exact absurd rfl hc
    | cons c cs => rfl
  have hio : itemsOrEmpty (.obj ms) = .ok (.arr []) := by
    unfold itemsOrEmpty
    rcases hitems with h | h
    · rw [h]
    · rw [h]; rfl
  have hcall : llmItemsCall apiKey (fun _ => .ok (some content)) maxRetries = .ok (.arr []) := by
    unfold llmItemsCall withRetry withRetryT
    rw [if_neg hk]
    simp only [hce, hp, hio, Bool.false_eq_true, if_false]
  exact ⟨hcall, hcall⟩

/-- Witness for C9: the backend replies `{}` (parses, no `items` key). -/
theorem missing_items_resolves_empty_witness :
    analyzeBOM ("k") (fun _ => .ok (some (String.toList ("\x7b\x7d")))) 3 = .ok (.arr []) ∧
    reEstimateItems ("k") (fun _ => .ok (some (String.toList ("\x7b\x7d")))) 3 = .ok (.arr []) :=
  missing_items_resolves_empty ("k") (String.toList ("\x7b\x7d")) [] 3
    (by decide) (by decide) (by rfl) (Or.inl rfl)

/-! ### C2 — the session can end `COMPLETE` with an empty result set -/

/-- Initial session state. -/
def initState : AppState := { status := .IDLE, results := .arr [], errorMsg := none }

/-- Counterexample to claim C2: with one parsed row and a backend response of
`{"items": []}`, the upload flow ends in state `COMPLETE` with an empty result
set, refuting the invariant that the result set is non-empty whenever the
state is `COMPLETE`. -/
theorem complete_with_empty_results_reachable :
    (handleFileSelect ("k") (.ok [("row")])
      (fun _ => .ok (some (String.toList ("\x7b\"items\": []\x7d")))) 3 initState).status =
        .COMPLETE ∧
    (handleFileSelect ("k") (.ok [("row")])
      (fun _ => .ok (some (String.toList ("\x7b\"items\": []\x7d")))) 3 initState).results =
        .arr [] :=
  ⟨rfl, rfl⟩

/-- Claim C2 as amended: in the upload flow (non-empty key, at least one
parsed row), the session ends in `COMPLETE` exactly when `analyzeBOM`
resolves, and then the result set is whatever it resolved with — including an
empty set; a parse producing zero rows is not treated as a failure. -/
theorem handleFileSelect_complete_iff_analysis_ok (apiKey : String)
    (rows : List String) (responses : Nat → Except JsError (Option (List Char)))
    (maxRetries : Nat) (s : AppState)
    (hk : apiKey ≠ "") (hrows : rows ≠ []) :
    (∀ e, analyzeBOM apiKey responses maxRetries = .error e →
      (handleFileSelect apiKey (.ok rows) responses maxRetries s).status = .ERROR) ∧
    (∀ v, analyzeBOM apiKey responses maxRetries = .ok v →
      (handleFileSelect apiKey (.ok rows) responses maxRetries s).status = .COMPLETE ∧
      (handleFileSelect apiKey (.ok rows) responses maxRetries s).results = v) := by
  have hre : rows.isEmpty = false := by
    cases rows with
    | nil => exact absurd rfl hrows
    | cons r rs => rfl
  constructor
  · intro e he
    unfold handleFileSelect
    rw [if_neg hk]
    simp only [hre, Bool.false_eq_true, if_false, he]
  · intro v hv
    unfold handleFileSelect
    rw [if_neg hk]
    simp only [hre, Bool.false_eq_true, if_false, hv]
    exact ⟨by trivial, by trivial⟩

/-- Witness for the amended C2 at the concrete empty-items response. -/
theorem handleFileSelect_complete_iff_analysis_ok_witness :
    (handleFileSelect ("k") (.ok [("row")])
      (fun _ => .ok (some (String.toList ("\x7b\"items\": []\x7d")))) 3 initState).status =
        .COMPLETE ∧
    (handleFileSelect ("k") (.ok [("row")])
      (fun _ => .ok (some (String.toList ("\x7b\"items\": []\x7d")))) 3 initState).results =
        .arr [] :=
  (handleFileSelect_complete_iff_analysis_ok ("k") [("row")]
    (fun _ => .ok (some (String.toList ("\x7b\"items\": []\x7d")))) 3 initState
    (by decide) (by decide)).2 (.arr []) (by rfl)

/-! ### C4 — `withRetry` makes `maxRetries + 1` attempts, not `maxRetries` -/

/-- Counterexample to claim C4: with `maxRetries = 1` and an operation that
always fails rate-limited, `withRetry` invokes the operation twice, exceeding
the claimed bound of at most `maxRetries` total invocations. -/
theorem withRetry_exceeds_maxRetries_calls :
    withRetryCalls (fun _ => (.error rl429 : Except JsError Unit)) 1 2000 = 2 ∧
    ¬ withRetryCalls (fun _ => (.error rl429 : Except JsError Unit)) 1 2000 ≤ 1 := by
  constructor
  · rfl
  · decide

/-- Attempt-count bound for the instrumented recursion. -/
theorem withRetryT_calls_le {T : Type} (fn : Nat → Except JsError T) :
    ∀ retriesLeft delay attempt,
      (withRetryT fn retriesLeft delay attempt).2 ≤ retriesLeft + 1 := by
  intro retriesLeft
  induction retriesLeft with
  | zero =>
    intro delay attempt
    unfold withRetryT
    cases fn attempt <;> simp
  | succ left ih =>
    intro delay attempt
    unfold withRetryT
    cases fn attempt with
    | ok v => simp
    | error e =>
      by_cases hr : isRetryable e = true
      · simp only [hr, if_true]
        have := ih (delay * 2) (attempt + 1)
        omega
      · simp only [hr, if_false]
        simp

/-- Claim C4 as amended: `withRetry(fn, maxRetries, delay)` invokes the
wrapped operation at most `maxRetries + 1` times in total — `maxRetries`
counts the retries after the first attempt, not inclusive of it. -/
theorem withRetry_calls_le_maxRetries_succ {T : Type}
    (fn : Nat → Except JsError T) (maxRetries delay : Nat) :
    withRetryCalls fn maxRetries delay ≤ maxRetries + 1 :=
  withRetryT_calls_le fn maxRetries delay 1

/-! ### C3 — retry budget of `withRetry` -/

/-- Run analysis of `withRetryT` against an operation that fails rate-limited
on attempts `1..R` and succeeds afterwards. -/
theorem withRetryT_rateLimit_run {T : Type} (fn : Nat → Except JsError T)
    (R : Nat) (v : T) (errs : Nat → JsError)
    (hfail : ∀ a, 1 ≤ a → a ≤ R → fn a = .error (errs a))
    (h429 : ∀ a, (errs a).status = some 429)
    (hsucc : ∀ a, R < a → fn a = .ok v) :
    ∀ left attempt delay, 1 ≤ attempt →
      (R < attempt + left → (withRetryT fn left delay attempt).1 = .ok v) ∧
      (attempt + left ≤ R →
        (withRetryT fn left delay attempt).1 = .error (errs (attempt + left))) := by
  intro left
  induction left with
  | zero =>
    intro attempt delay h1
    constructor
    · intro hgt
      unfold withRetryT
      rw [hsucc attempt (by omega)]
    · intro hle
      unfold withRetryT
      rw [hfail attempt h1 (by omega)]
      rfl
  | succ l ih =>
    intro attempt delay h1
    by_cases hatt : R < attempt
    · constructor
      · intro _
        unfold withRetryT
        rw [hsucc attempt hatt]
      · intro hle; omega
    · push_neg at hatt
      have hfa : fn attempt = .error (errs attempt) := hfail attempt h1 hatt
      have hretry : isRetryable (errs attempt) = true := by
        unfold isRetryable isRateLimit
        rw [h429 attempt]
        simp
      constructor
      · intro hgt
        unfold withRetryT
        rw [hfa]
        simp only [hretry, if_true]
        exact (ih (attempt + 1) (delay * 2) (by omega)).1 (by omega)
      · intro hle
        unfold withRetryT
        rw [hfa]
        simp only [hretry, if_true]
        have h2 := (ih (attempt + 1) (delay * 2) (by omega)).2 (by omega)
        have h3 : attempt + 1 + l = attempt + (l + 1) := by omega
        rw [h3] at h2
        exact h2

/-- Claim C3: for an operation failing with a rate-limit (HTTP 429) error
exactly `R` times before succeeding, `withRetry(fn, maxRetries, delay)`
resolves with the success value iff `maxRetries ≥ R`; with `maxRetries < R`
it rejects with the final rate-limit error itself, unwrapped. -/
theorem withRetry_budget {T : Type} (fn : Nat → Except JsError T)
    (R : Nat) (v : T) (errs : Nat → JsError) (maxRetries delay : Nat)
    (hfail : ∀ a, 1 ≤ a → a ≤ R → fn a = .error (errs a))
    (h429 : ∀ a, (errs a).status = some 429)
    (hsucc : ∀ a, R < a → fn a = .ok v) :
    (R ≤ maxRetries → withRetry fn maxRetries delay = .ok v) ∧
    (maxRetries < R → withRetry fn maxRetries delay = .error (errs (maxRetries + 1))) := by
  have h := withRetryT_rateLimit_run fn R v errs hfail h429 hsucc maxRetries 1 delay
    (by omega)
  constructor
  · intro hge
    exact h.1 (by omega)
  · intro hlt
    have := h.2 (by omega)
    rw [Nat.add_comm 1 maxRetries] at this
    exact this

/-- Witness for C3: two rate-limited failures then success, with a budget of
two retries — the call succeeds. -/
theorem withRetry_budget_witness :
    withRetry (fun a => if a ≤ 2 then (.error rl429 : Except JsError Unit) else .ok ()) 2 2000 =
      .ok () :=
  (withRetry_budget (fun a => if a ≤ 2 then (.error rl429 : Except JsError Unit) else .ok ())
    2 () (fun _ => rl429) 2 2000
    (by intro a h1 h2; simp [h2])
    (by intro a; rfl)
    (by intro a ha; simp [Nat.not_le.mpr ha])).1 (by omega)

/-! ### C6 — frame condition of the bulk re-estimation merge -/

/-- Behaviour of the merge fold from an arbitrary loop counter and
accumulator: length preserved, unselected slots untouched, the `j`-th
selected slot replaced by `updated[j0 + j]` when that element exists. -/
theorem bulkMergeAux (updated : List PowerAnalysisResult) :
    ∀ (indices : List Nat) (j0 : Nat) (acc : List PowerAnalysisResult),
      (∀ i ∈ indices, i < acc.length) → indices.Nodup →
      ((List.enumFrom j0 indices).foldl (mergeStep updated) acc).length = acc.length ∧
      (∀ idx, idx ∉ indices →
        ((List.enumFrom j0 indices).foldl (mergeStep updated) acc)[idx]? = acc[idx]?) ∧
      (∀ (j idx : Nat), indices[j]? = some idx →
        ((List.enumFrom j0 indices).foldl (mergeStep updated) acc)[idx]? =
          (updated[j0 + j]?).or acc[idx]?) := by
  intro indices
  induction indices with
  | nil =>
    intro j0 acc _ _
    refine ⟨rfl, fun _ _ => rfl, fun j idx h => by simp at h⟩
  | cons i0 tl ih =>
    intro j0 acc hbound hnd
    have hi0 : i0 < acc.length := hbound i0 (List.mem_cons_self i0 tl)
    have hnotin : i0 ∉ tl := (List.nodup_cons.mp hnd).1
    have hndtl : tl.Nodup := (List.nodup_cons.mp hnd).2
    have hacc1len : (mergeStep updated acc (j0, i0)).length = acc.length := by
      unfold mergeStep
      cases updated[j0]? with
      | some u => simp
      | none => rfl
    have hacc1ne : ∀ idx, idx ≠ i0 →
        (mergeStep updated acc (j0, i0))[idx]? = acc[idx]? := by
      intro idx hne
      unfold mergeStep
      cases updated[j0]? with
      | some u => exact List.getElem?_set_ne (fun h => hne h.symm)
      | none => rfl
    have hacc1eq : (mergeStep updated acc (j0, i0))[i0]? =
        (updated[j0]?).or acc[i0]? := by
      unfold mergeStep
      cases updated[j0]? with
      | some u => exact List.getElem?_set_self hi0
      | none => rfl
    have hboundtl : ∀ i ∈ tl, i < (mergeStep updated acc (j0, i0)).length := by
      intro i hi
      rw [hacc1len]
      exact hbound i (List.mem_cons_of_mem i0 hi)
    have IH := ih (j0 + 1) (mergeStep updated acc (j0, i0)) hboundtl hndtl
    rw [List.enumFrom_cons, List.foldl_cons]
    refine ⟨IH.1.trans hacc1len, ?_, ?_⟩
    · intro idx hidx
      have hne : idx ≠ i0 := fun h => hidx (h ▸ List.mem_cons_self i0 tl)
      have hnm : idx ∉ tl := fun h => hidx (List.mem_cons_of_mem i0 h)
      rw [IH.2.1 idx hnm, hacc1ne idx hne]
    · intro j idx hj
      cases j with
      | zero =>
        have hidx : idx = i0 := by
          simp only [List.getElem?_cons_zero, Option.some.injEq] at hj
          exact hj.symm
        subst hidx
        rw [IH.2.1 idx hnotin, Nat.add_zero, hacc1eq]
      | succ j' =>
        have hj' : tl[j']? = some idx := by
          simpa using hj
        have hmem : idx ∈ tl := by
          obtain ⟨hlt, heq⟩ := List.getElem?_eq_some.mp hj'
          exact heq ▸ List.getElem_mem hlt
        have hne : idx ≠ i0 := fun h => hnotin (h ▸ hmem)
        have := IH.2.2 j' idx hj'
        rw [this, hacc1ne idx hne]
        have harith : j0 + 1 + j' = j0 + (j' + 1) := by omega
        rw [harith]

/-- Claim C6: the bulk re-estimate merge preserves the length of the result
set, replaces the `j`-th selected index (in selection order) with `U[j]` when
it exists, and leaves every unselected index — and every selected index with
no corresponding returned record — exactly as before, raising no error when
`U` is shorter than the selection. -/
theorem bulkMerge_frame (results : List PowerAnalysisResult)
    (indices : List Nat) (updated : List PowerAnalysisResult)
    (hbound : ∀ i ∈ indices, i < results.length) (hnd : indices.Nodup) :
    (indices ≠ [] →
      handleBulkReEstimate results indices (.ok updated) =
        bulkMergeFold results indices updated) ∧
    (bulkMergeFold results indices updated).length = results.length ∧
    (∀ (j idx : Nat), indices[j]? = some idx →
      (bulkMergeFold results indices updated)[idx]? =
        (updated[j]?).or results[idx]?) ∧
    (∀ idx, idx ∉ indices →
      (bulkMergeFold results indices updated)[idx]? = results[idx]?) := by
  have h := bulkMergeAux updated indices 0 results hbound hnd
  have henum : indices.enum = List.enumFrom 0 indices := rfl
  refine ⟨?_, ?_, ?_, ?_⟩
  · intro hne
    unfold handleBulkReEstimate
    have : indices.isEmpty = false := by
      cases indices with
      | nil => exact absurd rfl hne
      | cons a as => rfl
    rw [this]
    rfl
  · rw [bulkMergeFold, henum]; exact h.1
  · intro j idx hj
    rw [bulkMergeFold, henum]
    have := h.2.2 j idx hj
    rwa [Nat.zero_add] at this
  · intro idx hidx
    rw [bulkMergeFold, henum]
    exact h.2.1 idx hidx

/-- Witness for C6: a three-record set, selection `[2, 0]`, one returned
record — slot 2 is replaced, slots 0 and 1 keep their records. -/
theorem bulkMerge_frame_witness :
    (bulkMergeFold [sampleRec, sampleRec, sampleRec] [2, 0]
        [{ sampleRec with partNumber := "U" }]).length = 3 ∧
    (∀ (j idx : Nat), [2, 0][j]? = some idx →
      (bulkMergeFold [sampleRec, sampleRec, sampleRec] [2, 0]
          [{ sampleRec with partNumber := "U" }])[idx]? =
        ([{ sampleRec with partNumber := "U" }][j]?).or
          [sampleRec, sampleRec, sampleRec][idx]?) ∧
    (∀ idx, idx ∉ [2, 0] →
      (bulkMergeFold [sampleRec, sampleRec, sampleRec] [2, 0]
          [{ sampleRec with partNumber := "U" }])[idx]? =
        [sampleRec, sampleRec, sampleRec][idx]?) :=
  (bulkMerge_frame [sampleRec, sampleRec, sampleRec] [2, 0]
    [{ sampleRec with partNumber := "U" }]
    (by intro i hi; fin_cases hi <;> decide) (by decide)).2

/-! ### Properties of the stable descending insertion sort -/

/-- Inserting permutes: `insertDescBy key x l` is `x :: l` up to order. -/
theorem insertDescBy_perm {α : Type} (key : α → Rat) (x : α) :
    ∀ l : List α, (insertDescBy key x l).Perm (x :: l) := by
  intro l
  induction l with
  | nil => exact List.Perm.refl _
  | cons y ys ih =>
    unfold insertDescBy
    by_cases h : key y ≤ key x
    · rw [if_pos h]
    · rw [if_neg h]
      exact (ih.cons y).trans (List.Perm.swap x y ys)

/-- Sorting permutes. -/
theorem sortDescBy_perm {α : Type} (key : α → Rat) :
    ∀ l : List α, (sortDescBy key l).Perm l := by
  intro l
  induction l with
  | nil => exact List.Perm.refl _
  | cons x xs ih =>
    exact (insertDescBy_perm key x (sortDescBy key xs)).trans (ih.cons x)

/-- Inserting into a descending-sorted list keeps it descending-sorted. -/
theorem insertDescBy_pairwise {α : Type} (key : α → Rat) (x : α) :
    ∀ l : List α, l.Pairwise (fun a b => key b ≤ key a) →
      (insertDescBy key x l).Pairwise (fun a b => key b ≤ key a) := by
  intro l
  induction l with
  | nil => intro _; simp [insertDescBy]
  | cons y ys ih =>
    intro hp
    rw [List.pairwise_cons] at hp
    unfold insertDescBy
    by_cases h : key y ≤ key x
    · rw [if_pos h]
      refine List.pairwise_cons.mpr ⟨?_, List.pairwise_cons.mpr hp⟩
      intro b hb
      rcases List.mem_cons.mp hb with rfl | hb
      · exact h
      · exact (hp.1 b hb).trans h
    · rw [if_neg h]
      refine List.pairwise_cons.mpr ⟨?_, ih hp.2⟩
      intro b hb
      have hb' := (insertDescBy_perm key x ys).mem_iff.mp hb
      rcases List.mem_cons.mp hb' with rfl | hb'
      · exact le_of_not_le h
      · exact hp.1 b hb'

/-- The sort output is descending in `key`. -/
theorem sortDescBy_pairwise {α : Type} (key : α → Rat) :
    ∀ l : List α, (sortDescBy key l).Pairwise (fun a b => key b ≤ key a) := by
  intro l
  induction l with
  | nil => simp [sortDescBy]
  | cons x xs ih => exact insertDescBy_pairwise key x _ ih

/-- Stability, filter form: inserting an element of key `c` prepends it to the
key-`c` subsequence; inserting any other element leaves that subsequence
unchanged. -/
theorem insertDescBy_filter_key {α : Type} (key : α → Rat) (c : Rat) (x : α) :
    ∀ l : List α,
      (insertDescBy key x l).filter (fun g => key g == c) =
        if key x == c then x :: l.filter (fun g => key g == c)
        else l.filter (fun g => key g == c) := by
  intro l
  induction l with
  | nil =>
    unfold insertDescBy
    by_cases h : key x == c <;> simp [h]
  | cons y ys ih =>
    unfold insertDescBy
    by_cases h : key y ≤ key x
    · rw [if_pos h]
      by_cases hx : key x == c <;> simp [List.filter_cons, hx]
    · rw [if_neg h]
      rw [List.filter_cons, ih]
      by_cases hx : key x == c
      · have hxc : key x = c := beq_iff_eq.mp hx
        have hy : (key y == c) = false := by
          apply beq_false_of_ne
          intro hyc
          exact h (by rw [hyc, hxc])
        simp [hx, hy, List.filter_cons]
      · simp [hx, List.filter_cons]

/-- Stability of the sort: for every key value `c`, the key-`c` subsequence of
the sorted output is exactly the key-`c` subsequence of the input, in input
order. -/
theorem sortDescBy_filter_key {α : Type} (key : α → Rat) (c : Rat) :
    ∀ l : List α,
      (sortDescBy key l).filter (fun g => key g == c) =
        l.filter (fun g => key g == c) := by
  intro l
  induction l with
  | nil => rfl
  | cons x xs ih =>
    unfold sortDescBy
    rw [insertDescBy_filter_key, ih, List.filter_cons]

/-! ### Invariants of the grouping fold -/

/-- The items list of `groupAdd` is the old list with the entry appended. -/
theorem groupAdd_items (g : GroupedModel) (idx : Nat) (item : PowerAnalysisResult) :
    (groupAdd g idx item).items = g.items ++ [(idx, item)] := by
  unfold groupAdd
  by_cases h : item.isIgnored <;> simp [h]

/-- The family key of `groupAdd` is unchanged. -/
theorem groupAdd_modelFamily (g : GroupedModel) (idx : Nat) (item : PowerAnalysisResult) :
    (groupAdd g idx item).modelFamily = g.modelFamily := by
  unfold groupAdd
  by_cases h : item.isIgnored <;> simp [h]

/-- The `totalMax` of `groupAdd`: contribution added only when not ignored. -/
theorem groupAdd_totalMax (g : GroupedModel) (idx : Nat) (item : PowerAnalysisResult) :
    (groupAdd g idx item).totalMax =
      g.totalMax + if item.isIgnored then 0 else item.maxPowerWatts * item.quantity := by
  unfold groupAdd
  by_cases h : item.isIgnored <;> simp [h]

/-- Max-power total of an items list: `Σ maxPowerWatts × quantity` over
non-ignored members. -/
def maxContribSum (items : List (Nat × PowerAnalysisResult)) : Rat :=
  ((items.filter (fun e => !e.2.isIgnored)).map
    (fun e => e.2.maxPowerWatts * e.2.quantity)).sum

/-- Appending one entry to an items list adds its (conditional) contribution. -/
theorem maxContribSum_append (items : List (Nat × PowerAnalysisResult))
    (idx : Nat) (item : PowerAnalysisResult) :
    maxContribSum (items ++ [(idx, item)]) =
      maxContribSum items + if item.isIgnored then 0 else item.maxPowerWatts * item.quantity := by
  unfold maxContribSum
  rw [List.filter_append, List.map_append, List.sum_append]
  by_cases h : item.isIgnored <;> simp [List.filter_cons, h]

/-- The flattened items of `addToGroups` are the old entries plus the new one,
up to order. -/
theorem addToGroups_flat_perm (idx : Nat) (item : PowerAnalysisResult) :
    ∀ gs : List GroupedModel,
      ((addToGroups gs idx item).flatMap (fun g => g.items)).Perm
        (gs.flatMap (fun g => g.items) ++ [(idx, item)]) := by
  intro gs
  induction gs with
  | nil =>
    simp [addToGroups, groupAdd_items, emptyGroup]
  | cons g rest ih =>
    unfold addToGroups
    by_cases h : g.modelFamily = famKey item
    · rw [if_pos h]
      simp only [List.flatMap_cons, groupAdd_items, List.append_assoc]
      exact List.Perm.append_left g.items List.perm_append_comm
    · rw [if_neg h]
      simp only [List.flatMap_cons, List.append_assoc]
      exact List.Perm.append_left g.items ih

/-- The flattened items of the grouping fold are the accumulator's entries
plus the enumerated records, up to order. -/
theorem groupsFold_flat_perm :
    ∀ (l : List PowerAnalysisResult) (n : Nat) (gs : List GroupedModel),
      (((List.enumFrom n l).foldl (fun gs p => addToGroups gs p.1 p.2) gs).flatMap
          (fun g => g.items)).Perm
        (gs.flatMap (fun g => g.items) ++ List.enumFrom n l) := by
  intro l
  induction l with
  | nil => intro n gs; simp
  | cons a tl ih =>
    intro n gs
    rw [List.enumFrom_cons, List.foldl_cons]
    refine (ih (n + 1) (addToGroups gs n a)).trans ?_
    refine (List.Perm.append_right _ (addToGroups_flat_perm n a gs)).trans ?_
    rw [List.append_assoc, List.singleton_append]

/-- Every enumerated record lands in exactly the flattened group items. -/
theorem groupsInOrder_flat_perm (results : List PowerAnalysisResult) :
    ((groupsInOrder results).flatMap (fun g => g.items)).Perm results.enum := by
  have h := groupsFold_flat_perm results 0 []
  simpa [groupsInOrder, List.enum] using h

/-- Every enumerated record lands in exactly the flattened group items, after
sorting. -/
theorem groupedModels_flat_perm (results : List PowerAnalysisResult) :
    ((groupedModels results).flatMap (fun g => g.items)).Perm results.enum := by
  have h : groupedModels results =
      sortDescBy (fun g => g.totalMax) (groupsInOrder results) := rfl
  rw [h]
  exact (List.Perm.flatMap_right (fun g : GroupedModel => g.items)
    (sortDescBy_perm (fun g : GroupedModel => g.totalMax)
      (groupsInOrder results))).trans (groupsInOrder_flat_perm results)

/-- `addToGroups` preserves the key-correctness invariant. -/
theorem addToGroups_key_correct (idx : Nat) (item : PowerAnalysisResult) :
    ∀ gs : List GroupedModel,
      (∀ g ∈ gs, ∀ e ∈ g.items, famKey e.2 = g.modelFamily) →
      ∀ g ∈ addToGroups gs idx item, ∀ e ∈ g.items, famKey e.2 = g.modelFamily := by
  intro gs
  induction gs with
  | nil =>
    intro _ g hg e he
    simp only [addToGroups, List.mem_singleton] at hg
    subst hg
    rw [groupAdd_items] at he
    simp only [emptyGroup, List.nil_append, List.mem_singleton] at he
    subst he
    rw [groupAdd_modelFamily]
    rfl
  | cons g0 rest ih =>
    intro hinv g hg e he
    have hrest : ∀ g ∈ rest, ∀ e ∈ g.items, famKey e.2 = g.modelFamily :=
      fun g hgm => hinv g (List.mem_cons_of_mem g0 hgm)
    unfold addToGroups at hg
    by_cases h : g0.modelFamily = famKey item
    · rw [if_pos h] at hg
      rcases List.mem_cons.mp hg with rfl | hgm
      · rw [groupAdd_items] at he
        rw [groupAdd_modelFamily]
        rcases List.mem_append.mp he with hold | hnew
        · exact hinv g0 (List.mem_cons_self g0 rest) e hold
        · rw [List.mem_singleton] at hnew
          subst hnew
          exact h.symm
      · exact hrest g hgm e he
    · rw [if_neg h] at hg
      rcases List.mem_cons.mp hg with rfl | hgm
      · exact hinv g (List.mem_cons_self g rest) e he
      · exact ih hrest g hgm e he

/-- The grouping fold preserves key correctness. -/
theorem groupsFold_key_correct :
    ∀ (l : List PowerAnalysisResult) (n : Nat) (gs : List GroupedModel),
      (∀ g ∈ gs, ∀ e ∈ g.items, famKey e.2 = g.modelFamily) →
      ∀ g ∈ (List.enumFrom n l).foldl (fun gs p => addToGroups gs p.1 p.2) gs,
        ∀ e ∈ g.items, famKey e.2 = g.modelFamily := by
  intro l
  induction l with
  | nil => intro n gs h; simpa using h
  | cons a tl ih =>
    intro n gs h
    rw [List.enumFrom_cons, List.foldl_cons]
    exact ih (n + 1) (addToGroups gs n a) (addToGroups_key_correct n a gs h)

/-- Key correctness of `groupedModels`: every member of a group has that
group's family key (empty `modelFamily` mapped to "Miscellaneous Parts"). -/
theorem groupedModels_key_correct (results : List PowerAnalysisResult) :
    ∀ g ∈ groupedModels results, ∀ e ∈ g.items, famKey e.2 = g.modelFamily := by
  intro g hg
  have hg' : g ∈ groupsInOrder results :=
    (sortDescBy_perm (fun g : GroupedModel => g.totalMax)
      (groupsInOrder results)).mem_iff.mp hg
  exact groupsFold_key_correct results 0 [] (by simp) g hg'

/-- `addToGroups` preserves the totals invariant. -/
theorem addToGroups_totalMax_inv (idx : Nat) (item : PowerAnalysisResult) :
    ∀ gs : List GroupedModel,
      (∀ g ∈ gs, g.totalMax = maxContribSum g.items) →
      ∀ g ∈ addToGroups gs idx item, g.totalMax = maxContribSum g.items := by
  intro gs
  induction gs with
  | nil =>
    intro _ g hg
    simp only [addToGroups, List.mem_singleton] at hg
    subst hg
    rw [groupAdd_totalMax, groupAdd_items]
    simp only [emptyGroup, List.nil_append]
    rw [show ([(idx, item)] : List (Nat × PowerAnalysisResult)) =
      [] ++ [(idx, item)] from rfl, maxContribSum_append]
    simp [maxContribSum]
  | cons g0 rest ih =>
    intro hinv g hg
    have hrest : ∀ g ∈ rest, g.totalMax = maxContribSum g.items :=
      fun g hgm => hinv g (List.mem_cons_of_mem g0 hgm)
    unfold addToGroups at hg
    by_cases h : g0.modelFamily = famKey item
    · rw [if_pos h] at hg
      rcases List.mem_cons.mp hg with rfl | hgm
      · rw [groupAdd_totalMax, groupAdd_items, maxContribSum_append,
          hinv g0 (List.mem_cons_self g0 rest)]
      · exact hrest g hgm
    · rw [if_neg h] at hg
      rcases List.mem_cons.mp hg with rfl | hgm
      · exact hinv g (List.mem_cons_self g rest)
      · exact ih hrest g hgm

/-- The grouping fold preserves the totals invariant. -/
theorem groupsFold_totalMax_inv :
    ∀ (l : List PowerAnalysisResult) (n : Nat) (gs : List GroupedModel),
      (∀ g ∈ gs, g.totalMax = maxContribSum g.items) →
      ∀ g ∈ (List.enumFrom n l).foldl (fun gs p => addToGroups gs p.1 p.2) gs,
        g.totalMax = maxContribSum g.items := by
  intro l
  induction l with
  | nil => intro n gs h; simpa using h
  | cons a tl ih =>
    intro n gs h
    rw [List.enumFrom_cons, List.foldl_cons]
    exact ih (n + 1) (addToGroups gs n a) (addToGroups_totalMax_inv n a gs h)

/-- Every group total is the max-power sum of its non-ignored members. -/
theorem groupedModels_totalMax (results : List PowerAnalysisResult) :
    ∀ g ∈ groupedModels results, g.totalMax = maxContribSum g.items := by
  intro g hg
  have hg' : g ∈ groupsInOrder results :=
    (sortDescBy_perm (fun g : GroupedModel => g.totalMax)
      (groupsInOrder results)).mem_iff.mp hg
  exact groupsFold_totalMax_inv results 0 [] (by simp) g hg'

/-- First-occurrence fold on key lists. -/
def firstSeen (keys : List String) : List String :=
  keys.foldl (fun acc k => if k ∈ acc then acc else acc ++ [k]) []

/-- Family list of `addToGroups`: unchanged when the key is already present,
otherwise the key is appended. -/
theorem addToGroups_map_fam (idx : Nat) (item : PowerAnalysisResult) :
    ∀ gs : List GroupedModel,
      (addToGroups gs idx item).map (fun g => g.modelFamily) =
        if famKey item ∈ gs.map (fun g => g.modelFamily) then
          gs.map (fun g => g.modelFamily)
        else gs.map (fun g => g.modelFamily) ++ [famKey item] := by
  intro gs
  induction gs with
  | nil => simp [addToGroups, groupAdd_modelFamily, emptyGroup]
  | cons g0 rest ih =>
    unfold addToGroups
    by_cases h : g0.modelFamily = famKey item
    · rw [if_pos h]
      have hmem : famKey item ∈ (g0 :: rest).map (fun g => g.modelFamily) := by
        rw [List.map_cons, h]
        exact List.mem_cons_self _ _
      rw [if_pos hmem, List.map_cons, List.map_cons, groupAdd_modelFamily, h]
    · rw [if_neg h]
      rw [List.map_cons, ih, List.map_cons]
      by_cases hm : famKey item ∈ rest.map (fun g => g.modelFamily)
      · rw [if_pos hm, if_pos (List.mem_cons_of_mem _ hm)]
      · rw [if_neg hm, if_neg ?_]
        · rw [List.cons_append]
        · intro hc
          rcases List.mem_cons.mp hc with hc | hc
          · exact h hc.symm
          · exact hm hc

/-- The grouping fold computes the first-seen key fold on family names. -/
theorem groupsFold_map_fam :
    ∀ (l : List PowerAnalysisResult) (n : Nat) (gs : List GroupedModel),
      ((List.enumFrom n l).foldl (fun gs p => addToGroups gs p.1 p.2) gs).map
          (fun g => g.modelFamily) =
        (l.map famKey).foldl (fun acc k => if k ∈ acc then acc else acc ++ [k])
          (gs.map (fun g => g.modelFamily)) := by
  intro l
  induction l with
  | nil => intro n gs; rfl
  | cons a tl ih =>
    intro n gs
    rw [List.enumFrom_cons, List.foldl_cons, List.map_cons, List.foldl_cons,
      ih (n + 1) (addToGroups gs n a), addToGroups_map_fam]

/-- The pre-sort group sequence lists family keys in first-seen order. -/
theorem groupsInOrder_map_fam (results : List PowerAnalysisResult) :
    (groupsInOrder results).map (fun g => g.modelFamily) =
      firstSeen (results.map famKey) := by
  have h := groupsFold_map_fam results 0 []
  simpa [groupsInOrder, List.enum, firstSeen] using h

/-- Each indexed record appears in some group of `groupedModels`. -/
theorem mem_groupedModels_of_getElem (results : List PowerAnalysisResult)
    (j : Nat) (r : PowerAnalysisResult) (h : results[j]? = some r) :
    ∃ g ∈ groupedModels results, (j, r) ∈ g.items := by
  have henum : (j, r) ∈ results.enum := by
    have h1 : results.enum[j]? = some (j, r) := by
      rw [List.getElem?_enum, h]
      rfl
    obtain ⟨hlt, heq⟩ := List.getElem?_eq_some.mp h1
    exact heq ▸ List.getElem_mem hlt
  have hflat : (j, r) ∈ (groupedModels results).flatMap (fun g => g.items) :=
    (groupedModels_flat_perm results).mem_iff.mpr henum
  exact List.mem_flatMap.mp hflat

/-! ### C8 — grouping rule, descending order, first-seen ties -/

/-- Claim C8: `groupedModels` partitions the records by family key (empty
`modelFamily` mapped to the literal "Miscellaneous Parts"), each group's
`totalMax` is the sum of `maxPowerWatts × quantity` over its non-ignored
members, the group sequence is descending in `totalMax`, and for every total
value the groups carrying it keep their first-seen relative order (the
pre-sort sequence lists families in first-occurrence order). -/
theorem groupedModels_partition_sorted (results : List PowerAnalysisResult) :
    ((groupedModels results).flatMap (fun g => g.items)).Perm results.enum ∧
    (∀ g ∈ groupedModels results, ∀ e ∈ g.items, famKey e.2 = g.modelFamily) ∧
    (∀ g ∈ groupedModels results, g.totalMax = maxContribSum g.items) ∧
    (groupedModels results).Pairwise (fun a b => b.totalMax ≤ a.totalMax) ∧
    (∀ c : Rat, (groupedModels results).filter (fun g => g.totalMax == c) =
      (groupsInOrder results).filter (fun g => g.totalMax == c)) ∧
    (groupsInOrder results).map (fun g => g.modelFamily) =
      firstSeen (results.map famKey) :=
  ⟨groupedModels_flat_perm results, groupedModels_key_correct results,
    groupedModels_totalMax results,
    sortDescBy_pairwise (fun g => g.totalMax) (groupsInOrder results),
    fun c => sortDescBy_filter_key (fun g => g.totalMax) c (groupsInOrder results),
    groupsInOrder_map_fam results⟩

/-! ### C5 — ignore-semantics noninterference -/

/-- The `totalTypical` of `groupAdd`. -/
theorem groupAdd_totalTypical (g : GroupedModel) (idx : Nat) (item : PowerAnalysisResult) :
    (groupAdd g idx item).totalTypical =
      g.totalTypical + if item.isIgnored then 0 else item.typicalPowerWatts * item.quantity := by
  unfold groupAdd
  by_cases h : item.isIgnored <;> simp [h]

/-- The `totalBTU` of `groupAdd`. -/
theorem groupAdd_totalBTU (g : GroupedModel) (idx : Nat) (item : PowerAnalysisResult) :
    (groupAdd g idx item).totalBTU =
      g.totalBTU + if item.isIgnored then 0 else item.heatDissipationBTU * item.quantity := by
  unfold groupAdd
  by_cases h : item.isIgnored <;> simp [h]

/-- The `category` of `groupAdd` is unchanged. -/
theorem groupAdd_category (g : GroupedModel) (idx : Nat) (item : PowerAnalysisResult) :
    (groupAdd g idx item).category = g.category := by
  unfold groupAdd
  by_cases h : item.isIgnored <;> simp [h]

/-- Record similarity: equal group key, category and ignore flag, and equal
outright when not ignored.  Changing only the numeric fields of an ignored
record yields a similar record. -/
def rSim (a b : PowerAnalysisResult) : Prop :=
  famKey a = famKey b ∧ a.category = b.category ∧ a.isIgnored = b.isIgnored ∧
  (a.isIgnored = false → a = b)

/-- Observable view of a group: everything except the member records
themselves (member indices are kept). -/
def gView (g : GroupedModel) : String × Rat × Rat × Rat × String × List Nat :=
  (g.modelFamily, g.totalTypical, g.totalMax, g.totalBTU, g.category,
    g.items.map Prod.fst)

/-- Group similarity: equal observable views. -/
def gSim (g g' : GroupedModel) : Prop := gView g = gView g'

/-- Components of group similarity. -/
theorem gSim_parts {g g' : GroupedModel} (h : gSim g g') :
    g.modelFamily = g'.modelFamily ∧ g.totalTypical = g'.totalTypical ∧
    g.totalMax = g'.totalMax ∧ g.totalBTU = g'.totalBTU ∧
    g.category = g'.category ∧ g.items.map Prod.fst = g'.items.map Prod.fst := by
  unfold gSim gView at h
  simpa [Prod.mk.injEq] using h

/-- `rSim` is reflexive. -/
theorem rSim_refl (a : PowerAnalysisResult) : rSim a a :=
  ⟨rfl, rfl, rfl, fun _ => rfl⟩

/-- `Forall₂ rSim` is reflexive. -/
theorem forall₂_rSim_refl : ∀ l : List PowerAnalysisResult, List.Forall₂ rSim l l := by
  intro l
  induction l with
  | nil => exact List.Forall₂.nil
  | cons a tl ih => exact List.Forall₂.cons (rSim_refl a) ih

/-- `groupAdd` sends similar groups and similar records to similar groups. -/
theorem groupAdd_sim {g g' : GroupedModel} {a b : PowerAnalysisResult}
    (hg : gSim g g') (hr : rSim a b) (idx : Nat) :
    gSim (groupAdd g idx a) (groupAdd g' idx b) := by
  obtain ⟨h1, h2, h3, h4, h5, h6⟩ := gSim_parts hg
  obtain ⟨hr1, hr2, hr3, hr4⟩ := hr
  unfold gSim gView
  rw [groupAdd_items, groupAdd_items, groupAdd_modelFamily, groupAdd_modelFamily,
    groupAdd_category, groupAdd_category, groupAdd_totalTypical, groupAdd_totalTypical,
    groupAdd_totalMax, groupAdd_totalMax, groupAdd_totalBTU, groupAdd_totalBTU]
  by_cases hi : a.isIgnored
  · have hib : b.isIgnored = true := hr3 ▸ hi
    simp [hi, hib, h1, h2, h3, h4, h5, h6]
  · have hab : a = b := hr4 (Bool.not_eq_true a.isIgnored ▸ hi)
    subst hab
    simp [hi, h1, h2, h3, h4, h5, h6]

/-- Fresh groups of similar records are similar. -/
theorem emptyGroup_sim {a b : PowerAnalysisResult} (hr : rSim a b) :
    gSim (emptyGroup a) (emptyGroup b) := by
  obtain ⟨hr1, hr2, _, _⟩ := hr
  unfold gSim gView emptyGroup
  simp [hr1, hr2]

/-- `addToGroups` preserves similarity of group lists. -/
theorem addToGroups_sim {gs gs' : List GroupedModel} {a b : PowerAnalysisResult}
    (h : List.Forall₂ gSim gs gs') (hr : rSim a b) (idx : Nat) :
    List.Forall₂ gSim (addToGroups gs idx a) (addToGroups gs' idx b) := by
  induction h with
  | nil =>
    exact List.Forall₂.cons (groupAdd_sim (emptyGroup_sim hr) hr idx) List.Forall₂.nil
  | cons hg htl ih =>
    rename_i g g' rest rest'
    unfold addToGroups
    have hfam : g.modelFamily = g'.modelFamily := (gSim_parts hg).1
    have hkey : famKey a = famKey b := hr.1
    by_cases hc : g.modelFamily = famKey a
    · rw [if_pos hc, if_pos (by rw [← hfam, ← hkey]; exact hc)]
      exact List.Forall₂.cons (groupAdd_sim hg hr idx) htl
    · rw [if_neg hc, if_neg (by rw [← hfam, ← hkey]; exact hc)]
      exact List.Forall₂.cons hg ih

/-- The grouping fold preserves similarity. -/
theorem groupsFold_sim :
    ∀ {l l' : List PowerAnalysisResult}, List.Forall₂ rSim l l' →
      ∀ (n : Nat) {gs gs' : List GroupedModel}, List.Forall₂ gSim gs gs' →
      List.Forall₂ gSim
        ((List.enumFrom n l).foldl (fun gs p => addToGroups gs p.1 p.2) gs)
        ((List.enumFrom n l').foldl (fun gs p => addToGroups gs p.1 p.2) gs') := by
  intro l l' h
  induction h with
  | nil => intro n gs gs' hg; simpa using hg
  | cons hr htl ih =>
    intro n gs gs' hg
    rw [List.enumFrom_cons, List.foldl_cons, List.enumFrom_cons, List.foldl_cons]
    exact ih (n + 1) (addToGroups_sim hg hr n)

/-- Stable insertion preserves similarity (similar elements have equal sort
keys). -/
theorem insertDescBy_sim {l l' : List GroupedModel}
    (h : List.Forall₂ gSim l l') {x y : GroupedModel} (hxy : gSim x y) :
    List.Forall₂ gSim (insertDescBy (fun g => g.totalMax) x l)
      (insertDescBy (fun g => g.totalMax) y l') := by
  induction h with
  | nil => exact List.Forall₂.cons hxy List.Forall₂.nil
  | cons hg htl ih =>
    rename_i g g' rest rest'
    unfold insertDescBy
    have hgx : g.totalMax = g'.totalMax := (gSim_parts hg).2.2.1
    have hxk : x.totalMax = y.totalMax := (gSim_parts hxy).2.2.1
    by_cases hc : g.totalMax ≤ x.totalMax
    · rw [if_pos hc, if_pos (by rw [← hgx, ← hxk]; exact hc)]
      exact List.Forall₂.cons hxy (List.Forall₂.cons hg htl)
    · rw [if_neg hc, if_neg (by rw [← hgx, ← hxk]; exact hc)]
      exact List.Forall₂.cons hg ih

/-- The stable sort preserves similarity. -/
theorem sortDescBy_sim {l l' : List GroupedModel}
    (h : List.Forall₂ gSim l l') :
    List.Forall₂ gSim (sortDescBy (fun g => g.totalMax) l)
      (sortDescBy (fun g => g.totalMax) l') := by
  induction h with
  | nil => exact List.Forall₂.nil
  | cons hg htl ih => exact insertDescBy_sim ih hg

/-- Lists related by `gSim` have equal `gView` images. -/
theorem forall₂_gSim_map_eq :
    ∀ {l l' : List GroupedModel}, List.Forall₂ gSim l l' →
      l.map gView = l'.map gView := by
  intro l l' h
  induction h with
  | nil => rfl
  | cons hg htl ih =>
    rename_i g g' rest rest'
    have hv : gView g = gView g' := hg
    rw [List.map_cons, List.map_cons, ih, hv]

/-- Similar result sets produce groups with equal observable views. -/
theorem groupedModels_gView_eq {results results' : List PowerAnalysisResult}
    (h : List.Forall₂ rSim results results') :
    (groupedModels results).map gView = (groupedModels results').map gView :=
  forall₂_gSim_map_eq (sortDescBy_sim (groupsFold_sim h 0 List.Forall₂.nil))

/-- Pointwise similarity of a list with its single-slot update. -/
theorem forall₂_rSim_set :
    ∀ (l : List PowerAnalysisResult) (i : Nat) (r' : PowerAnalysisResult),
      (∀ r0, l[i]? = some r0 → rSim r0 r') →
      List.Forall₂ rSim l (l.set i r') := by
  intro l
  induction l with
  | nil => intro i r' _; exact List.Forall₂.nil
  | cons a tl ih =>
    intro i r' h
    cases i with
    | zero =>
      exact List.Forall₂.cons (h a (by simp)) (forall₂_rSim_refl tl)
    | succ i' =>
      exact List.Forall₂.cons (rSim_refl a) (ih i' r' (fun r0 h0 => h r0 (by simpa using h0)))

/-- Filtering out ignored records is unaffected by replacing an ignored
record with another ignored record. -/
theorem filter_ignored_set :
    ∀ (l : List PowerAnalysisResult) (i : Nat) (r' : PowerAnalysisResult),
      r'.isIgnored = true → (∀ r0, l[i]? = some r0 → r0.isIgnored = true) →
      (l.set i r').filter (fun r => !r.isIgnored) = l.filter (fun r => !r.isIgnored) := by
  intro l
  induction l with
  | nil => intro i r' _ _; rfl
  | cons a tl ih =>
    intro i r' hr' h
    cases i with
    | zero =>
      have ha : a.isIgnored = true := h a (by simp)
      simp [List.filter_cons, ha, hr']
    | succ i' =>
      simp only [List.set_cons_succ, List.filter_cons]
      rw [ih i' r' hr' (fun r0 h0 => h r0 (by simpa using h0))]

/-- Numeric-field update of a record (the fields C5 ranges over). -/
def setNumerics (r : PowerAnalysisResult) (t m h q : Rat) : PowerAnalysisResult :=
  { r with typicalPowerWatts := t, maxPowerWatts := m,
           heatDissipationBTU := h, quantity := q }

/-- Claim C5: with record `i` flagged ignored, changing its numeric fields
(`typicalPowerWatts`, `maxPowerWatts`, `heatDissipationBTU`, `quantity`)
leaves the Summary (totals and category breakdown) and every group's
observable view (key, totals, category, member indices and order) unchanged,
while the modified record still appears in its group's item list. -/
theorem ignored_numeric_noninterference (results : List PowerAnalysisResult)
    (i : Nat) (t m hb q : Rat) (hi : i < results.length)
    (hig : results[i].isIgnored = true) :
    summary (results.set i (setNumerics results[i] t m hb q)) = summary results ∧
    (groupedModels (results.set i (setNumerics results[i] t m hb q))).map gView =
      (groupedModels results).map gView ∧
    ∃ g ∈ groupedModels (results.set i (setNumerics results[i] t m hb q)),
      (i, setNumerics results[i] t m hb q) ∈ g.items := by
  have hget : results[i]? = some results[i] := List.getElem?_eq_getElem hi
  have hone : ∀ r0, results[i]? = some r0 → r0.isIgnored = true := by
    intro r0 h0
    rw [hget] at h0
    cases h0
    exact hig
  have hr'ig : (setNumerics results[i] t m hb q).isIgnored = true := hig
  have hrsim : ∀ r0, results[i]? = some r0 → rSim r0 (setNumerics results[i] t m hb q) := by
    intro r0 h0
    rw [hget] at h0
    cases h0
    refine ⟨rfl, rfl, rfl, ?_⟩
    intro hf
    rw [hig] at hf
    cases hf
  have hfa : List.Forall₂ rSim results
      (results.set i (setNumerics results[i] t m hb q)) :=
    forall₂_rSim_set results i _ hrsim
  refine ⟨?_, ?_, ?_⟩
  · have hf := filter_ignored_set results i _ hr'ig hone
    unfold summary
    rw [hf]
  · exact (groupedModels_gView_eq hfa).symm
  · have hset : (results.set i (setNumerics results[i] t m hb q))[i]? =
        some (setNumerics results[i] t m hb q) :=
      List.getElem?_set_self hi
    exact mem_groupedModels_of_getElem _ i _ hset

/-- An ignored sample record. -/
def ignoredRec : PowerAnalysisResult :=
  { sampleRec with partNumber := "PSU-SPARE", isIgnored := true }

/-- Witness for C5 at a concrete two-record set with record 0 ignored. -/
theorem ignored_numeric_noninterference_witness :
    summary ([ignoredRec, sampleRec].set 0
        (setNumerics [ignoredRec, sampleRec][0] 999 888 777 5)) =
      summary [ignoredRec, sampleRec] ∧
    (groupedModels ([ignoredRec, sampleRec].set 0
        (setNumerics [ignoredRec, sampleRec][0] 999 888 777 5))).map gView =
      (groupedModels [ignoredRec, sampleRec]).map gView ∧
    ∃ g ∈ groupedModels ([ignoredRec, sampleRec].set 0
        (setNumerics [ignoredRec, sampleRec][0] 999 888 777 5)),
      (0, setNumerics [ignoredRec, sampleRec][0] 999 888 777 5) ∈ g.items :=
  ignored_numeric_noninterference [ignoredRec, sampleRec] 0 999 888 777 5
    (by decide) (by rfl)

/-! ### C7 — direct-parse identity of the sanitizer -/

/-- Discriminating projection: the first string element of the `items` array
of an object value. -/
def firstItemStr : JVal → String
  | .obj ((_, .arr (.str s :: _)) :: _) => s
  | _ => ""

/-- Counterexample to claim C7: the well-formed, shape-conforming text
`{"items":["` ```json `"]}` parses directly to an object whose single item is
the fence string, but `cleanAndParseJSON` strips the fence marker inside the
string literal first and returns an object whose single item is the empty
string — not equal to `JSON.parse` of the exact text. -/
theorem sanitizer_mutates_fenced_string :
    jsonParse (String.toList ("\x7b\"items\":[\"\x60\x60\x60json\"]\x7d")) =
      some (.obj [("items", .arr [.str ("\x60\x60\x60json")])]) ∧
    cleanAndParseJSON (String.toList ("\x7b\"items\":[\"\x60\x60\x60json\"]\x7d")) =
      some (.obj [("items", .arr [.str ("")])]) ∧
    cleanAndParseJSON (String.toList ("\x7b\"items\":[\"\x60\x60\x60json\"]\x7d")) ≠
      jsonParse (String.toList ("\x7b\"items\":[\"\x60\x60\x60json\"]\x7d")) := by
  refine ⟨rfl, rfl, ?_⟩
  intro h
  have hmap := congrArg (Option.map firstItemStr) h
  exact absurd hmap (by decide)

/-- Claim C7 as amended: for every well-formed JSON text on which the
cleaning pass (reasoning-tag removal, fence removal, trim) is the identity —
in particular one containing no fence or `<think>` markup and no surrounding
whitespace — whose parse is an object of the `items` shape, the sanitizer
returns exactly `JSON.parse` of that text, with no mutation. -/
theorem sanitizer_direct_parse_identity (t : List Char) (v : JVal)
    (l : List JVal) (hclean : cleanContent t = t) (hp : jsonParse t = some v)
    (_hshape : getField v ("items") = .ok (some (.arr l))) :
    cleanAndParseJSON t = jsonParse t := by
  simp only [cleanAndParseJSON, hclean, hp]

/-- Witness for the amended C7 on the text `{"items":[1]}`. -/
theorem sanitizer_direct_parse_identity_witness :
    cleanAndParseJSON (String.toList ("\x7b\"items\":[1]\x7d")) =
      jsonParse (String.toList ("\x7b\"items\":[1]\x7d")) :=
  sanitizer_direct_parse_identity (String.toList ("\x7b\"items\":[1]\x7d"))
    (.obj [("items", .arr [.num 1])]) [.num 1] (by rfl) (by rfl) (by rfl)

/-! ### C1 — truncation repair: serialized payloads and their cut points

The quantified truncation-repair statements range over canonically serialized
payloads `{"items":[r1,...,rN]}` whose array elements are flat records (JSON
objects whose field values are atoms — null, booleans, integers, escape-free
strings), the shape the extraction contract produces.  The serializer below
produces the canonical (whitespace-free) form; the parser above is the model
of `JSON.parse` and is shared with every other claim. -/

/-- Decimal digit character. -/
def digitChar : Nat → Char
  | 0 => '0' | 1 => '1' | 2 => '2' | 3 => '3' | 4 => '4'
  | 5 => '5' | 6 => '6' | 7 => '7' | 8 => '8' | _ => '9'

/-- Fuelled decimal rendering of a natural number. -/
def serNatAux : Nat → Nat → List Char
  | 0, _ => []
  | f + 1, n =>
    if n < 10 then [digitChar n] else serNatAux f (n / 10) ++ [digitChar (n % 10)]

/-- Decimal rendering of a natural number. -/
def serNat (n : Nat) : List Char := serNatAux (n + 1) n

/-- Decimal rendering of an integer. -/
def serInt (n : Int) : List Char :=
  if n < 0 then '-' :: serNat (-n).toNat else serNat n.toNat

/-- Atomic JSON values appearing as record fields. -/
inductive Atom where
  | anull : Atom
  | abool : Bool → Atom
  | anum : Int → Atom
  | astr : String → Atom

/-- The JSON value of an atom. -/
def atomJ : Atom → JVal
  | .anull => .null
  | .abool b => .bool b
  | .anum n => .num n
  | .astr s => .str s

/-- Serialization of an atom. -/
def serAtom : Atom → List Char
  | .anull => ['n', 'u', 'l', 'l']
  | .abool true => ['t', 'r', 'u', 'e']
  | .abool false => ['f', 'a', 'l', 's', 'e']
  | .anum n => serInt n
  | .astr s => '"' :: s.data ++ ['"']

/-- A flat record: named atomic fields. -/
abbrev RecF := List (String × Atom)

/-- Serialization of one record member `"key":value`. -/
def serMember (m : String × Atom) : List Char :=
  '"' :: m.1.data ++ '"' :: ':' :: serAtom m.2

/-- Serialization of the remaining members, each preceded by a comma. -/
def serMembersRest : RecF → List Char
  | [] => []
  | m :: ms => ',' :: (serMember m ++ serMembersRest ms)

/-- Serialization of a record object. -/
def serRec : RecF → List Char
  | [] => ['\x7b', '\x7d']
  | m :: ms => '\x7b' :: (serMember m ++ serMembersRest ms) ++ ['\x7d']

/-- Serialization of the remaining array elements, comma-preceded. -/
def serRecsRest : List RecF → List Char
  | [] => []
  | r :: rs => ',' :: (serRec r ++ serRecsRest rs)

/-- Serialization of the array elements, comma-separated. -/
def serRecs : List RecF → List Char
  | [] => []
  | r :: rs => serRec r ++ serRecsRest rs

/-- The JSON value of a record. -/
def recJ (r : RecF) : JVal := .obj (r.map (fun m => (m.1, atomJ m.2)))

/-- The canonical payload prefix `{"items":[`. -/
def preChars : List Char := ['\x7b', '"', 'i', 't', 'e', 'm', 's', '"', ':', '[']

/-- The canonical serialized payload `{"items":[r1,...,rN]}`. -/
def payloadChars (l : List RecF) : List Char :=
  preChars ++ serRecs l ++ [']', '\x7d']

/-- The payload truncated immediately after the comma separating element `k`
from element `k + 1`. -/
def cutAfterComma (l : List RecF) (k : Nat) : List Char :=
  preChars ++ serRecs (l.take k) ++ [',']

/-- Length of the truncated payload above, as a position in the full one. -/
def cutLen (l : List RecF) (k : Nat) : Nat :=
  preChars.length + (serRecs (l.take k)).length + 1

/-- String characters admissible in the modelled fragment: no quote or
backslash (escape-free strings), and none that would let the cleaning pass
fire (`<` up to case, or a backtick). -/
def safeCharB (c : Char) : Bool :=
  !(c = '"') && !(c = '\\') && !(c.toLower = '<') && !(c = '\x60')

/-- All characters of a string admissible. -/
def safeStrB (s : String) : Bool := s.data.all safeCharB

/-- Atom admissibility (only strings constrain anything). -/
def safeAtomB : Atom → Bool
  | .astr s => safeStrB s
  | _ => true

/-- Record admissibility: all keys and string values admissible. -/
def safeRecB (r : RecF) : Bool := r.all (fun m => safeStrB m.1 && safeAtomB m.2)

/-- The ten digit characters. -/
def digitChars : List Char := ['0', '1', '2', '3', '4', '5', '6', '7', '8', '9']

/-- `digitChar` lands in the digit character set. -/
theorem digitChar_mem (d : Nat) : digitChar d ∈ digitChars := by
  rcases d with _|_|_|_|_|_|_|_|_|d
  · decide
  · decide
  · decide
  · decide
  · decide
  · decide
  · decide
  · decide
  · decide
  · exact (by decide : ('9' : Char) ∈ digitChars)

/-- Facts about digit characters used while walking the parser. -/
theorem digitChar_facts (d : Nat) :
    jDigit (digitChar d) = true ∧ digitChar d ≠ '-' ∧ digitChar d ≠ '\x7b' ∧
    digitChar d ≠ '[' ∧ digitChar d ≠ '"' ∧ digitChar d ≠ 't' ∧
    digitChar d ≠ 'f' ∧ digitChar d ≠ 'n' ∧ jsWs (digitChar d) = false ∧
    (digitChar d).toLower ≠ '<' ∧ digitChar d ≠ '\x60' ∧ digitChar d ≠ '\\' := by
  have key : ∀ c ∈ digitChars, jDigit c = true ∧ c ≠ '-' ∧ c ≠ '\x7b' ∧
      c ≠ '[' ∧ c ≠ '"' ∧ c ≠ 't' ∧ c ≠ 'f' ∧ c ≠ 'n' ∧ jsWs c = false ∧
      c.toLower ≠ '<' ∧ c ≠ '\x60' ∧ c ≠ '\\' := by decide
  exact key (digitChar d) (digitChar_mem d)

/-- Digit value of a digit character below ten. -/
theorem digitChar_val (d : Nat) (h : d < 10) : (digitChar d).toNat - 48 = d := by
  interval_cases d <;> decide

/-- Every character of `serNatAux` is a digit character. -/
theorem serNatAux_mem :
    ∀ (f n : Nat), ∀ c ∈ serNatAux f n, ∃ d, c = digitChar d := by
  intro f
  induction f with
  | zero => intro n c hc; cases hc
  | succ f ih =>
    intro n c hc
    unfold serNatAux at hc
    by_cases h : n < 10
    · rw [if_pos h] at hc
      rw [List.mem_singleton] at hc
      exact ⟨n, hc⟩
    · rw [if_neg h] at hc
      rcases List.mem_append.mp hc with hl | hr
      · exact ih (n / 10) c hl
      · rw [List.mem_singleton] at hr
        exact ⟨n % 10, hr⟩

/-- Membership version of `serNatAux_mem` phrased on `serNat`. -/
theorem serNat_mem (m : Nat) : ∀ c ∈ serNat m, ∃ d, c = digitChar d :=
  fun c hc => serNatAux_mem (m + 1) m c hc

/-- `serNat` renders at least one character. -/
theorem serNat_shape (m : Nat) : ∃ c cs, serNat m = c :: cs := by
  unfold serNat serNatAux
  by_cases h : m < 10
  · rw [if_pos h]
    exact ⟨digitChar m, [], rfl⟩
  · rw [if_neg h]
    cases heq : serNatAux m (m / 10) with
    | nil => exact ⟨digitChar (m % 10), [], rfl⟩
    | cons a as => exact ⟨a, as ++ [digitChar (m % 10)], rfl⟩

/-- Value of the digit fold over `serNatAux`. -/
theorem serNatAux_foldl :
    ∀ (f n acc : Nat), n < f →
      (serNatAux f n).foldl (fun a c => a * 10 + (c.toNat - 48)) acc =
        acc * 10 ^ (serNatAux f n).length + n := by
  intro f
  induction f with
  | zero => intro n acc h; omega
  | succ f ih =>
    intro n acc h
    unfold serNatAux
    by_cases hn : n < 10
    · rw [if_pos hn]
      simp only [List.foldl_cons, List.foldl_nil, List.length_singleton, pow_one]
      rw [digitChar_val n hn]
    · rw [if_neg hn]
      have hdiv : n / 10 < f := by omega
      rw [List.foldl_append, ih (n / 10) acc hdiv]
      simp only [List.foldl_cons, List.foldl_nil, List.length_append,
        List.length_singleton]
      rw [digitChar_val (n % 10) (by omega), pow_succ]
      have hmod := Nat.div_add_mod n 10
      calc (acc * 10 ^ (serNatAux f (n / 10)).length + n / 10) * 10 + n % 10
          = acc * (10 ^ (serNatAux f (n / 10)).length * 10) + (n / 10 * 10 + n % 10) := by
            ring
        _ = acc * (10 ^ (serNatAux f (n / 10)).length * 10) + n := by omega

/-- The digit fold over `serNat n` started at zero recovers `n`. -/
theorem serNat_foldl (n : Nat) :
    (serNat n).foldl (fun a c => a * 10 + (c.toNat - 48)) 0 = n := by
  unfold serNat
  rw [serNatAux_foldl (n + 1) n 0 (Nat.lt_succ_self n)]
  simp

/-- `digitsAux` splits a leading digit run from a non-digit continuation. -/
theorem digitsAux_append :
    ∀ (ds : List Char), (∀ c ∈ ds, jDigit c = true) →
      ∀ (rest : List Char), (∀ c, rest.head? = some c → jDigit c = false) →
      ∀ acc, digitsAux (ds ++ rest) acc =
        (ds.foldl (fun a c => a * 10 + (c.toNat - 48)) acc, rest) := by
  intro ds
  induction ds with
  | nil =>
    intro _ rest hrest acc
    cases rest with
    | nil => rfl
    | cons c cs =>
      have hc : jDigit c = false := hrest c rfl
      rw [List.nil_append, List.foldl_nil]
      simp only [digitsAux, hc, Bool.false_eq_true, if_false]
  | cons c ds' ih =>
    intro hds rest hrest acc
    have hc : jDigit c = true := hds c (List.mem_cons_self c ds')
    rw [List.cons_append]
    simp only [digitsAux, hc, if_true, List.foldl_cons]
    exact ih (fun x hx => hds x (List.mem_cons_of_mem c hx)) rest hrest _

/-- Roundtrip for serialized integers followed by a non-digit continuation. -/
theorem parseNumFrom_ser (n : Int) (rest : List Char)
    (hrest : ∀ c, rest.head? = some c → jDigit c = false) :
    parseNumFrom (serInt n ++ rest) = some (n, rest) := by
  have hser : ∀ m : Nat, digitsAux (serNat m ++ rest) 0 = (m, rest) := by
    intro m
    rw [digitsAux_append (serNat m)
      (fun c hc => by
        obtain ⟨d, rfl⟩ := serNat_mem m c hc
        exact (digitChar_facts d).1) rest hrest 0]
    rw [serNat_foldl m]
  unfold serInt
  by_cases hn : n < 0
  · rw [if_pos hn]
    obtain ⟨c, cs, hshape⟩ := serNat_shape (-n).toNat
    obtain ⟨d, hd⟩ := serNat_mem _ c (by rw [hshape]; exact List.mem_cons_self c cs)
    subst hd
    have hda := hser (-n).toNat
    rw [hshape, List.cons_append] at hda
    rw [List.cons_append, hshape, List.cons_append]
    simp only [parseNumFrom, (digitChar_facts d).1, if_true, hda]
    have htn : (((-n).toNat : Nat) : Int) = -n := Int.toNat_of_nonneg (by omega)
    rw [htn]
    simp
  · rw [if_neg hn]
    obtain ⟨c, cs, hshape⟩ := serNat_shape n.toNat
    obtain ⟨d, hd⟩ := serNat_mem _ c (by rw [hshape]; exact List.mem_cons_self c cs)
    subst hd
    have hda := hser n.toNat
    rw [hshape, List.cons_append] at hda
    rw [hshape, List.cons_append]
    simp only [parseNumFrom, (digitChar_facts d).1, if_true, hda,
      if_neg (digitChar_facts d).2.1]
    have htn : ((n.toNat : Nat) : Int) = n := Int.toNat_of_nonneg (by omega)
    rw [htn]

/-- `skipWs` is the identity on a non-whitespace head. -/
theorem skipWs_cons {c : Char} (h : jsWs c = false) (l : List Char) :
    skipWs (c :: l) = c :: l := by
  simp [skipWs, List.dropWhile_cons, h]

/-- Unpacked form of `safeCharB`. -/
theorem safeCharB_spec {c : Char} (h : safeCharB c = true) :
    c ≠ '"' ∧ c ≠ '\\' ∧ c.toLower ≠ '<' ∧ c ≠ '\x60' := by
  unfold safeCharB at h
  simp only [Bool.and_eq_true, Bool.not_eq_true', decide_eq_false_iff_not] at h
  exact ⟨h.1.1.1, h.1.1.2, h.1.2, h.2⟩

/-- Roundtrip of the string-body scanner on admissible characters. -/
theorem strBody_ser :
    ∀ cs : List Char, (∀ c ∈ cs, safeCharB c = true) →
      ∀ rest, strBody (cs ++ '"' :: rest) = some (cs, rest) := by
  intro cs
  induction cs with
  | nil => intro _ rest; simp [strBody]
  | cons c cs' ih =>
    intro hsafe rest
    obtain ⟨h1, h2, _, _⟩ := safeCharB_spec (hsafe c (List.mem_cons_self c cs'))
    rw [List.cons_append]
    simp only [strBody, if_neg h1, if_neg h2,
      ih (fun x hx => hsafe x (List.mem_cons_of_mem c hx)) rest]

/-- Shape of a serialized integer: a minus sign or a digit, then more. -/
theorem serInt_shape (n : Int) :
    ∃ c cs, serInt n = c :: cs ∧ (c = '-' ∨ ∃ d, c = digitChar d) := by
  unfold serInt
  by_cases hn : n < 0
  · rw [if_pos hn]
    exact ⟨'-', serNat (-n).toNat, rfl, Or.inl rfl⟩
  · rw [if_neg hn]
    obtain ⟨c, cs, hshape⟩ := serNat_shape n.toNat
    obtain ⟨d, hd⟩ := serNat_mem _ c (by rw [hshape]; exact List.mem_cons_self c cs)
    exact ⟨c, cs, hshape, Or.inr ⟨d, hd⟩⟩

/-- Roundtrip of `parseVal` on one serialized atom followed by a non-digit
continuation. -/
theorem parseVal_serAtom (f : Nat) (a : Atom) (rest : List Char)
    (hf : 1 ≤ f) (hsafe : safeAtomB a = true)
    (hrest : ∀ c, rest.head? = some c → jDigit c = false) :
    parseVal f (serAtom a ++ rest) = some (atomJ a, rest) := by
  obtain ⟨f0, rfl⟩ : ∃ f0, f = f0 + 1 := ⟨f - 1, by omega⟩
  cases a with
  | anull =>
    show parseVal (f0 + 1) ('n' :: 'u' :: 'l' :: 'l' :: rest) = some (.null, rest)
    rfl
  | abool b =>
    cases b with
    | true =>
      show parseVal (f0 + 1) ('t' :: 'r' :: 'u' :: 'e' :: rest) = some (.bool true, rest)
      rfl
    | false =>
      show parseVal (f0 + 1) ('f' :: 'a' :: 'l' :: 's' :: 'e' :: rest) =
        some (.bool false, rest)
      rfl
  | anum n =>
    show parseVal (f0 + 1) (serInt n ++ rest) = some (.num n, rest)
    have hnum := parseNumFrom_ser n rest hrest
    obtain ⟨c, cs, hshape, hc⟩ := serInt_shape n
    rw [hshape, List.cons_append] at hnum ⊢
    rcases hc with rfl | ⟨d, rfl⟩
    · simp only [parseVal, skipWs_cons (by decide : jsWs '-' = false)]
      rw [if_neg (by decide), if_neg (by decide), if_neg (by decide),
        if_neg (by decide), if_neg (by decide), if_neg (by decide)]
      simp [hnum]
    · have hfacts := digitChar_facts d
      simp only [parseVal, skipWs_cons hfacts.2.2.2.2.2.2.2.2.1]
      rw [if_neg hfacts.2.2.1, if_neg hfacts.2.2.2.1, if_neg hfacts.2.2.2.2.1,
        if_neg hfacts.2.2.2.2.2.1, if_neg hfacts.2.2.2.2.2.2.1,
        if_neg hfacts.2.2.2.2.2.2.2.1]
      simp [hfacts.1, hnum]
  | astr s =>
    have hall : ∀ c ∈ s.data, safeCharB c = true := by
      have : safeStrB s = true := hsafe
      unfold safeStrB at this
      exact fun c hc => List.all_eq_true.mp this c hc
    have harr : serAtom (.astr s) ++ rest = '"' :: (s.data ++ '"' :: rest) := by
      show ('"' :: (s.data ++ ['"'])) ++ rest = '"' :: (s.data ++ '"' :: rest)
      rw [List.cons_append, List.append_assoc, List.singleton_append]
    rw [harr]
    simp only [parseVal, skipWs_cons (by decide : jsWs '"' = false)]
    rw [if_neg (by decide), if_neg (by decide)]
    simp [strBody_ser s.data hall rest]
    rfl

/-- Fuel needed to parse a serialized record object. -/
def recFuel (r : RecF) : Nat := r.length + 2

/-- Fuel needed to parse the serialized tail of the element list. -/
def recsFuelRest : List RecF → Nat
  | [] => 1
  | r :: rs => recFuel r + recsFuelRest rs + 1

/-- Fuel needed to parse the serialized element array body. -/
def arrFuel : List RecF → Nat
  | [] => 1
  | r :: rs => recFuel r + recsFuelRest rs + 1

/-- Fuel needed to parse a serialized payload. -/
def payloadFuel (l : List RecF) : Nat := arrFuel l + 4

/-- The continuation after an atom inside a record starts with `,` or `}`. -/
theorem serMembersRest_head (ms : RecF) (rest : List Char) :
    ∀ c, (serMembersRest ms ++ '\x7d' :: rest).head? = some c → jDigit c = false := by
  cases ms with
  | nil =>
    intro c hc
    simp only [serMembersRest, List.nil_append, List.head?_cons,
      Option.some.injEq] at hc
    subst hc; decide
  | cons m ms' =>
    intro c hc
    simp only [serMembersRest, List.cons_append, List.head?_cons,
      Option.some.injEq] at hc
    subst hc; decide

/-- Unpacked form of `safeRecB`. -/
theorem safeRecB_spec {r : RecF} (h : safeRecB r = true) :
    ∀ m ∈ r, safeStrB m.1 = true ∧ safeAtomB m.2 = true := by
  unfold safeRecB at h
  intro m hm
  have hx := List.all_eq_true.mp h m hm
  simpa [Bool.and_eq_true] using hx

/-- Roundtrip of the object-member continuation parser. -/
theorem parseObjTail_ser :
    ∀ (ms : RecF) (fuel : Nat) (rest : List Char),
      ms.length + 1 ≤ fuel →
      (∀ m ∈ ms, safeStrB m.1 = true ∧ safeAtomB m.2 = true) →
      parseObjTail fuel (serMembersRest ms ++ '\x7d' :: rest) =
        some (ms.map (fun m => (m.1, atomJ m.2)), rest) := by
  intro ms
  induction ms with
  | nil =>
    intro fuel rest hfuel _
    obtain ⟨f0, rfl⟩ : ∃ f0, fuel = f0 + 1 := ⟨fuel - 1, by omega⟩
    rfl
  | cons m ms' ih =>
    intro fuel rest hfuel hsafe
    simp only [List.length_cons] at hfuel
    obtain ⟨f0, rfl⟩ : ∃ f0, fuel = f0 + 1 := ⟨fuel - 1, by omega⟩
    obtain ⟨hkey, hatom⟩ := hsafe m (List.mem_cons_self m ms')
    have hshape : serMembersRest (m :: ms') ++ '\x7d' :: rest =
        ',' :: '"' :: (m.1.data ++ '"' :: ':' ::
          (serAtom m.2 ++ (serMembersRest ms' ++ '\x7d' :: rest))) := by
      simp [serMembersRest, serMember, List.append_assoc]
    have hstr := strBody_ser m.1.data
      (fun c hc => List.all_eq_true.mp hkey c hc)
      (':' :: (serAtom m.2 ++ (serMembersRest ms' ++ '\x7d' :: rest)))
    have hatomrt := parseVal_serAtom f0 m.2
      (serMembersRest ms' ++ '\x7d' :: rest) (by omega) hatom
      (serMembersRest_head ms' rest)
    have hih := ih f0 rest (by omega)
      (fun x hx => hsafe x (List.mem_cons_of_mem m hx))
    rw [hshape]
    simp [parseObjTail, skipWs, List.dropWhile_cons, jsWs, hstr, hatomrt, hih]

/-- Every serialized record starts with an opening brace. -/
theorem serRec_head (r : RecF) : ∃ t, serRec r = '\x7b' :: t := by
  cases r with
  | nil => exact ⟨['\x7d'], rfl⟩
  | cons m ms => exact ⟨(serMember m ++ serMembersRest ms) ++ ['\x7d'], rfl⟩

/-- Roundtrip of `parseVal` on one serialized record. -/
theorem parseVal_serRec :
    ∀ (r : RecF) (fuel : Nat) (rest : List Char),
      recFuel r ≤ fuel → safeRecB r = true →
      parseVal fuel (serRec r ++ rest) = some (recJ r, rest) := by
  intro r fuel rest hfuel hsafe
  cases r with
  | nil =>
    obtain ⟨f0, rfl⟩ : ∃ f0, fuel = f0 + 2 := ⟨fuel - 2, by simp [recFuel] at hfuel; omega⟩
    rfl
  | cons m ms =>
    obtain ⟨f0, rfl⟩ : ∃ f0, fuel = f0 + 2 := ⟨fuel - 2, by simp [recFuel] at hfuel; omega⟩
    have hlen : ms.length + 2 ≤ f0 + 1 := by simp [recFuel] at hfuel; omega
    obtain ⟨hkey, hatom⟩ := safeRecB_spec hsafe m (List.mem_cons_self m ms)
    have hshape : serRec (m :: ms) ++ rest =
        '\x7b' :: '"' :: (m.1.data ++ '"' :: ':' ::
          (serAtom m.2 ++ (serMembersRest ms ++ '\x7d' :: rest))) := by
      simp [serRec, serMember, List.append_assoc]
    have hstr := strBody_ser m.1.data
      (fun c hc => List.all_eq_true.mp hkey c hc)
      (':' :: (serAtom m.2 ++ (serMembersRest ms ++ '\x7d' :: rest)))
    have hatomrt := parseVal_serAtom f0 m.2
      (serMembersRest ms ++ '\x7d' :: rest) (by omega) hatom
      (serMembersRest_head ms rest)
    have htail := parseObjTail_ser ms f0 rest (by omega)
      (fun x hx => safeRecB_spec hsafe x (List.mem_cons_of_mem m hx))
    rw [hshape]
    simp [parseVal, parseObj, skipWs, List.dropWhile_cons, jsWs, hstr, hatomrt, htail]
    rfl

/-- Roundtrip of the array-element continuation parser. -/
theorem parseArrTail_ser :
    ∀ (rs : List RecF) (fuel : Nat) (rest : List Char),
      recsFuelRest rs ≤ fuel → (∀ r ∈ rs, safeRecB r = true) →
      parseArrTail fuel (serRecsRest rs ++ ']' :: rest) = some (rs.map recJ, rest) := by
  intro rs
  induction rs with
  | nil =>
    intro fuel rest hfuel _
    obtain ⟨f0, rfl⟩ : ∃ f0, fuel = f0 + 1 := ⟨fuel - 1, by simp [recsFuelRest] at hfuel; omega⟩
    rfl
  | cons r rs' ih =>
    intro fuel rest hfuel hsafe
    obtain ⟨f0, rfl⟩ : ∃ f0, fuel = f0 + 1 :=
      ⟨fuel - 1, by simp [recsFuelRest] at hfuel; omega⟩
    have hfr : recFuel r ≤ f0 := by simp [recsFuelRest] at hfuel; omega
    have hft : recsFuelRest rs' ≤ f0 := by simp [recsFuelRest] at hfuel; omega
    have hshape : serRecsRest (r :: rs') ++ ']' :: rest =
        ',' :: (serRec r ++ (serRecsRest rs' ++ ']' :: rest)) := by
      simp [serRecsRest, List.append_assoc]
    have hr := parseVal_serRec r f0 (serRecsRest rs' ++ ']' :: rest) hfr
      (hsafe r (List.mem_cons_self r rs'))
    have hihx := ih f0 rest hft (fun x hx => hsafe x (List.mem_cons_of_mem r hx))
    rw [hshape]
    simp [parseArrTail, skipWs, List.dropWhile_cons, jsWs, hr, hihx]

/-- Roundtrip of `parseVal` on a serialized payload. -/
theorem parseVal_payload :
    ∀ (l : List RecF) (fuel : Nat) (rest : List Char),
      payloadFuel l ≤ fuel → (∀ r ∈ l, safeRecB r = true) →
      parseVal fuel (payloadChars l ++ rest) =
        some (.obj [("items", .arr (l.map recJ))], rest) := by
  intro l fuel rest hfuel hsafe
  have hge : 5 ≤ payloadFuel l := by
    cases l <;> simp [payloadFuel, arrFuel, recFuel]
  obtain ⟨f1, rfl⟩ : ∃ f1, fuel = f1 + 4 := ⟨fuel - 4, by omega⟩
  have hshape : payloadChars l ++ rest =
      '\x7b' :: '"' :: 'i' :: 't' :: 'e' :: 'm' :: 's' :: '"' :: ':' :: '[' ::
        (serRecs l ++ (']' :: '\x7d' :: rest)) := by
    simp [payloadChars, preChars, List.append_assoc]
  rw [hshape]
  cases l with
  | nil => rfl
  | cons r rs =>
    have hfr : recFuel r ≤ f1 := by simp [payloadFuel, arrFuel] at hfuel; omega
    have hft : recsFuelRest rs ≤ f1 := by simp [payloadFuel, arrFuel] at hfuel; omega
    obtain ⟨t, hrh⟩ := serRec_head r
    have hshape2 : serRecs (r :: rs) ++ (']' :: '\x7d' :: rest) =
        serRec r ++ (serRecsRest rs ++ ']' :: '\x7d' :: rest) := by
      simp [serRecs, List.append_assoc]
    have hr := parseVal_serRec r f1 (serRecsRest rs ++ ']' :: '\x7d' :: rest) hfr
      (hsafe r (List.mem_cons_self r rs))
    have ht := parseArrTail_ser rs f1 ('\x7d' :: rest) hft
      (fun x hx => hsafe x (List.mem_cons_of_mem r hx))
    have hsk : List.dropWhile jsWs (serRec r ++ (serRecsRest rs ++ ']' :: '\x7d' :: rest)) =
        '\x7b' :: (t ++ (serRecsRest rs ++ ']' :: '\x7d' :: rest)) := by
      rw [hrh, List.cons_append]
      simp [List.dropWhile_cons, jsWs]
    rw [hshape2]
    simp [parseVal, parseObj, parseArr, skipWs, List.dropWhile_cons, jsWs,
      strBody, hsk, hr, ht, parseObjTail]

/-- Serialized atoms are non-empty. -/
theorem serAtom_len (a : Atom) : 1 ≤ (serAtom a).length := by
  cases a with
  | anull => decide
  | abool b => cases b <;> decide
  | anum n =>
    obtain ⟨c, cs, hshape, _⟩ := serInt_shape n
    show 1 ≤ (serInt n).length
    rw [hshape]
    simp
  | astr s => simp [serAtom]

/-- Serialized member tails dominate the member count. -/
theorem serMembersRest_len (ms : RecF) : ms.length ≤ (serMembersRest ms).length := by
  induction ms with
  | nil => simp [serMembersRest]
  | cons m ms' ih => simp [serMembersRest]; omega

/-- The record fuel is dominated by the serialized record length. -/
theorem recFuel_le_len (r : RecF) : recFuel r ≤ (serRec r).length := by
  cases r with
  | nil => decide
  | cons m ms =>
    have h1 := serMembersRest_len ms
    have h2 := serAtom_len m.2
    simp [recFuel, serRec, serMember]
    omega

/-- The tail fuel is dominated by the serialized tail length plus one. -/
theorem recsFuelRest_le (rs : List RecF) :
    recsFuelRest rs ≤ (serRecsRest rs).length + 1 := by
  induction rs with
  | nil => simp [recsFuelRest, serRecsRest]
  | cons r rs' ih =>
    have h1 := recFuel_le_len r
    simp [recsFuelRest, serRecsRest]
    omega

/-- The payload fuel is dominated by the `jsonParse` fuel of the payload. -/
theorem payloadFuel_le (l : List RecF) :
    payloadFuel l ≤ 2 * (payloadChars l).length + 2 := by
  cases l with
  | nil => simp [payloadFuel, arrFuel, payloadChars, preChars, serRecs]
  | cons r rs =>
    have h1 := recFuel_le_len r
    have h2 := recsFuelRest_le rs
    simp [payloadFuel, arrFuel, payloadChars, preChars, serRecs]
    omega

/-- `JSON.parse` on a serialized payload returns the corresponding object. -/
theorem jsonParse_payload (l : List RecF) (hsafe : ∀ r ∈ l, safeRecB r = true) :
    jsonParse (payloadChars l) = some (.obj [("items", .arr (l.map recJ))]) := by
  unfold jsonParse
  have h := parseVal_payload l (2 * (payloadChars l).length + 2) []
    (payloadFuel_le l) hsafe
  rw [List.append_nil] at h
  rw [h]
  rfl

/-- `parseVal` fails on empty input at any fuel. -/
theorem parseVal_nil (f : Nat) : parseVal f [] = none := by
  cases f with
  | zero => rfl
  | succ f0 => rfl

/-- One-level unfolding of `parseArr` at successor fuel. -/
theorem parseArr_succ (f : Nat) (s : List Char) :
    parseArr (f + 1) s =
      match skipWs s with
      | [] => none
      | c :: r =>
        if c = ']' then some (.arr [], r)
        else
          match parseVal f s with
          | none => none
          | some (v, r1) =>
            match parseArrTail f r1 with
            | none => none
            | some (vs, r2) => some (.arr (v :: vs), r2) := rfl

/-- One-level unfolding of `parseArrTail` at successor fuel. -/
theorem parseArrTail_succ (f : Nat) (s : List Char) :
    parseArrTail (f + 1) s =
      match skipWs s with
      | [] => none
      | c :: r =>
        if c = ']' then some ([], r)
        else if c = ',' then
          match parseVal f r with
          | none => none
          | some (v, r2) =>
            match parseArrTail f r2 with
            | none => none
            | some (vs, r3) => some (v :: vs, r3)
        else none := rfl

/-- One-level unfolding of `parseObj` at successor fuel. -/
theorem parseObj_succ (f : Nat) (s : List Char) :
    parseObj (f + 1) s =
      match skipWs s with
      | [] => none
      | c :: r =>
        if c = '\x7d' then some (.obj [], r)
        else if c = '"' then
          match strBody r with
          | none => none
          | some (k, r2) =>
            match skipWs r2 with
            | [] => none
            | c2 :: r3 =>
              if c2 = ':' then
                match parseVal f r3 with
                | none => none
                | some (v, r4) =>
                  match parseObjTail f r4 with
                  | none => none
                  | some (ms, r5) => some (.obj ((⟨k⟩, v) :: ms), r5)
              else none
        else none := rfl

/-- One-level unfolding of `parseObjTail` at successor fuel. -/
theorem parseObjTail_succ (f : Nat) (s : List Char) :
    parseObjTail (f + 1) s =
      match skipWs s with
      | [] => none
      | c :: r =>
        if c = '\x7d' then some ([], r)
        else if c = ',' then
          match skipWs r with
          | [] => none
          | c1 :: r1 =>
            if c1 = '"' then
              match strBody r1 with
              | none => none
              | some (k, r2) =>
                match skipWs r2 with
                | [] => none
                | c2 :: r3 =>
                  if c2 = ':' then
                    match parseVal f r3 with
                    | none => none
                    | some (v, r4) =>
                      match parseObjTail f r4 with
                      | none => none
                      | some (ms, r5) => some ((⟨k⟩, v) :: ms, r5)
                  else none
            else none
        else none := rfl

/-- One-step fuel monotonicity for the five parser functions. -/
theorem parse_mono :
    ∀ f : Nat,
      (∀ s r, parseVal f s = some r → parseVal (f + 1) s = some r) ∧
      (∀ s r, parseArr f s = some r → parseArr (f + 1) s = some r) ∧
      (∀ s r, parseArrTail f s = some r → parseArrTail (f + 1) s = some r) ∧
      (∀ s r, parseObj f s = some r → parseObj (f + 1) s = some r) ∧
      (∀ s r, parseObjTail f s = some r → parseObjTail (f + 1) s = some r) := by
  intro f
  induction f with
  | zero =>
    refine ⟨?_, ?_, ?_, ?_, ?_⟩ <;> · intro s r h; simp [parseVal, parseArr,
      parseArrTail, parseObj, parseObjTail] at h
  | succ f ih =>
    obtain ⟨ihV, ihA, ihAT, ihO, ihOT⟩ := ih
    refine ⟨?_, ?_, ?_, ?_, ?_⟩
    · intro s r h
      simp only [parseVal] at h ⊢
      split at h
      · simp at h
      · split at h
        · next hc =>
          rw [if_pos hc]
          exact ihO _ _ h
        · next hc =>
          rw [if_neg hc]
          split at h
          · next hc2 =>
            rw [if_pos hc2]
            exact ihA _ _ h
          · next hc2 =>
            rw [if_neg hc2]
            exact h
    · intro s r h
      rw [parseArr_succ]
      simp only [parseArr] at h
      split at h
      · simp at h
      · split at h
        · next hc =>
          rw [if_pos hc]
          exact h
        · next hc =>
          rw [if_neg hc]
          split at h
          · simp at h
          · next v r1 heq =>
            simp only [ihV _ _ heq]
            split at h
            · simp at h
            · next vs r2 heq2 =>
              simp only [ihAT _ _ heq2]
              exact h
    · intro s r h
      rw [parseArrTail_succ]
      simp only [parseArrTail] at h
      split at h
      · simp at h
      · split at h
        · next hc =>
          rw [if_pos hc]
          exact h
        · next hc =>
          rw [if_neg hc]
          split at h
          · next hc2 =>
            rw [if_pos hc2]
            split at h
            · simp at h
            · next v r2 heq =>
              split at h
              · simp at h
              · next vs r3 heq2 =>
                simp only [ihV _ _ heq, ihAT _ _ heq2]
                exact h
          · next hc2 =>
            rw [if_neg hc2]
            exact h
    · intro s r h
      rw [parseObj_succ]
      simp only [parseObj] at h
      split at h
      · simp at h
      · split at h
        · next hc =>
          rw [if_pos hc]
          exact h
        · next hc =>
          rw [if_neg hc]
          split at h
          · next hc2 =>
            rw [if_pos hc2]
            split at h
            · simp at h
            · next k r2 heq =>
              split at h
              · simp at h
              · split at h
                · next hc3 =>
                  rw [if_pos hc3]
                  split at h
                  · simp at h
                  · next v r4 heq2 =>
                    simp only [ihV _ _ heq2]
                    split at h
                    · simp at h
                    · next ms r5 heq3 =>
                      simp only [ihOT _ _ heq3]
                      exact h
                · next hc3 =>
                  rw [if_neg hc3]
                  exact h
          · next hc2 =>
            rw [if_neg hc2]
            exact h
    · intro s r h
      rw [parseObjTail_succ]
      simp only [parseObjTail] at h
      split at h
      · simp at h
      · split at h
        · next hc =>
          rw [if_pos hc]
          exact h
        · next hc =>
          rw [if_neg hc]
          split at h
          · next hc2 =>
            rw [if_pos hc2]
            split at h
            · simp at h
            · split at h
              · next hc3 =>
                rw [if_pos hc3]
                split at h
                · simp at h
                · next k r2 heq =>
                  split at h
                  · simp at h
                  · split at h
                    · next hc4 =>
                      rw [if_pos hc4]
                      split at h
                      · simp at h
                      · next v r4 heq2 =>
                        split at h
                        · simp at h
                        · next ms r5 heq3 =>
                          simp only [ihV _ _ heq2, ihOT _ _ heq3]
                          exact h
                    · next hc4 =>
                      rw [if_neg hc4]
                      exact h
              · next hc3 =>
                rw [if_neg hc3]
                exact h
          · next hc2 =>
            rw [if_neg hc2]
            exact h

/-- Fuel monotonicity of `parseVal` (arbitrary increase). -/
theorem parseVal_mono_le {f f' : Nat} (hle : f ≤ f') :
    ∀ s r, parseVal f s = some r → parseVal f' s = some r := by
  induction hle with
  | refl => exact fun s r h => h
  | step h2 ih =>
    rename_i f''
    exact fun s r h => (parse_mono f'').1 s r (ih s r h)

/-- A successful `parseVal` on a serialized record must return that record. -/
theorem parseVal_serRec_det (r : RecF) (f : Nat) (rest : List Char)
    (hsafe : safeRecB r = true) (x : JVal × List Char)
    (hx : parseVal f (serRec r ++ rest) = some x) : x = (recJ r, rest) := by
  have h1 := parseVal_mono_le (Nat.le_max_left f (recFuel r)) _ _ hx
  have h2 := parseVal_serRec r (max f (recFuel r)) rest
    (Nat.le_max_right f (recFuel r)) hsafe
  rw [h1] at h2
  exact Option.some.inj h2

/-- The array-tail parser fails at any fuel on a truncated element list that
ends with a dangling comma. -/
theorem parseArrTail_trunc_none :
    ∀ (rs : List RecF) (f : Nat), (∀ r ∈ rs, safeRecB r = true) →
      parseArrTail f (serRecsRest rs ++ [',']) = none := by
  intro rs
  induction rs with
  | nil =>
    intro f _
    cases f with
    | zero => rfl
    | succ f0 =>
      rw [parseArrTail_succ]
      simp [serRecsRest, skipWs, List.dropWhile_cons, jsWs, parseVal_nil]
  | cons r rs' ih =>
    intro f hsafe
    cases f with
    | zero => rfl
    | succ f0 =>
      have hshape : serRecsRest (r :: rs') ++ [','] =
          ',' :: (serRec r ++ (serRecsRest rs' ++ [','])) := by
        simp [serRecsRest, List.append_assoc]
      rw [hshape, parseArrTail_succ]
      rw [show skipWs (',' :: (serRec r ++ (serRecsRest rs' ++ [',']))) =
        ',' :: (serRec r ++ (serRecsRest rs' ++ [','])) from skipWs_cons (by decide) _]
      simp only [if_neg (by decide : ¬ (',' : Char) = ']'), if_pos rfl]
      cases hv : parseVal f0 (serRec r ++ (serRecsRest rs' ++ [','])) with
      | none => simp [hv]
      | some x =>
        obtain rfl := parseVal_serRec_det r f0 _
          (hsafe r (List.mem_cons_self r rs')) x hv
        simp [hv,
          ih f0 (fun y hy => hsafe y (List.mem_cons_of_mem r hy))]

/-- The array parser fails at any fuel on a non-empty truncated element list
ending with a dangling comma. -/
theorem parseArr_trunc_none :
    ∀ (rs : List RecF) (f : Nat), rs ≠ [] → (∀ r ∈ rs, safeRecB r = true) →
      parseArr f (serRecs rs ++ [',']) = none := by
  intro rs f hne hsafe
  cases rs with
  | nil => exact absurd rfl hne
  | cons r rs' =>
    cases f with
    | zero => rfl
    | succ f0 =>
      have hshape : serRecs (r :: rs') ++ [','] =
          serRec r ++ (serRecsRest rs' ++ [',']) := by
        simp [serRecs, List.append_assoc]
      obtain ⟨t, hrh⟩ := serRec_head r
      have hsk : skipWs (serRec r ++ (serRecsRest rs' ++ [','])) =
          '\x7b' :: (t ++ (serRecsRest rs' ++ [','])) := by
        rw [hrh, List.cons_append]
        exact skipWs_cons (by decide) _
      rw [hshape, parseArr_succ]
      rw [hsk]
      simp only [if_neg (by decide : ¬ ('\x7b' : Char) = ']')]
      cases hv : parseVal f0 (serRec r ++ (serRecsRest rs' ++ [','])) with
      | none => simp [hv]
      | some x =>
        obtain rfl := parseVal_serRec_det r f0 _
          (hsafe r (List.mem_cons_self r rs')) x hv
        simp [hv,
          parseArrTail_trunc_none rs' f0
            (fun y hy => hsafe y (List.mem_cons_of_mem r hy))]

/-- `parseVal` fails at any fuel on the truncated payload. -/
theorem parseVal_cut_none (l : List RecF) (k : Nat) (h1 : 1 ≤ k)
    (h2 : k < l.length) (hsafe : ∀ r ∈ l, safeRecB r = true) :
    ∀ f, parseVal f (cutAfterComma l k) = none := by
  have htk_ne : l.take k ≠ [] := by
    intro hc
    rcases List.take_eq_nil_iff.mp hc with hk | hl
    · omega
    · subst hl
      simp at h2
  have hsafe' : ∀ r ∈ l.take k, safeRecB r = true :=
    fun r hr => hsafe r (List.take_subset k l hr)
  have hshape : cutAfterComma l k =
      '\x7b' :: '"' :: 'i' :: 't' :: 'e' :: 'm' :: 's' :: '"' :: ':' :: '[' ::
        (serRecs (l.take k) ++ [',']) := by
    simp [cutAfterComma, preChars, List.append_assoc]
  intro f
  rw [hshape]
  cases f with
  | zero => rfl
  | succ f0 =>
    show parseObj f0 ('"' :: 'i' :: 't' :: 'e' :: 'm' :: 's' :: '"' :: ':' :: '[' ::
      (serRecs (l.take k) ++ [','])) = none
    cases f0 with
    | zero => rfl
    | succ f1 =>
      have hv : parseVal f1 ('[' :: (serRecs (l.take k) ++ [','])) = none := by
        cases f1 with
        | zero => rfl
        | succ f2 =>
          show parseArr f2 (serRecs (l.take k) ++ [',']) = none
          exact parseArr_trunc_none (l.take k) f2 htk_ne hsafe'
      rw [parseObj_succ]
      simp [skipWs, List.dropWhile_cons, jsWs, strBody, hv]

/-- The modelled `JSON.parse` rejects the truncated payload. -/
theorem jsonParse_cut_none (l : List RecF) (k : Nat) (h1 : 1 ≤ k)
    (h2 : k < l.length) (hsafe : ∀ r ∈ l, safeRecB r = true) :
    jsonParse (cutAfterComma l k) = none := by
  unfold jsonParse
  rw [parseVal_cut_none l k h1 h2 hsafe]

/-- Characters on which the cleaning pass can never fire. -/
def cleanSafe (c : Char) : Prop := c.toLower ≠ '<' ∧ c ≠ '\x60'

/-- Characters of a serialized atom are clean-safe. -/
theorem serAtom_cleanSafe (a : Atom) (hsafe : safeAtomB a = true) :
    ∀ c ∈ serAtom a, cleanSafe c := by
  cases a with
  | anull => intro c hc; fin_cases hc <;> exact ⟨by decide, by decide⟩
  | abool b =>
    cases b <;> · intro c hc; fin_cases hc <;> exact ⟨by decide, by decide⟩
  | anum n =>
    intro c hc
    show cleanSafe c
    have : c = '-' ∨ ∃ d, c = digitChar d := by
      simp only [serAtom, serInt] at hc
      by_cases hn : n < 0
      · rw [if_pos hn] at hc
        rcases List.mem_cons.mp hc with rfl | hm
        · exact Or.inl rfl
        · exact Or.inr (serNat_mem _ c hm)
      · rw [if_neg hn] at hc
        exact Or.inr (serNat_mem _ c hc)
    rcases this with rfl | ⟨d, rfl⟩
    · exact ⟨by decide, by decide⟩
    · exact ⟨(digitChar_facts d).2.2.2.2.2.2.2.2.2.1,
        (digitChar_facts d).2.2.2.2.2.2.2.2.2.2.1⟩
  | astr s =>
    intro c hc
    have hall : ∀ x ∈ s.data, safeCharB x = true :=
      fun x hx => List.all_eq_true.mp hsafe x hx
    rcases List.mem_cons.mp hc with rfl | hm
    · exact ⟨by decide, by decide⟩
    · rcases List.mem_append.mp hm with hd | hq
      · obtain ⟨_, _, h3, h4⟩ := safeCharB_spec (hall c hd)
        exact ⟨h3, h4⟩
      · rw [List.mem_singleton] at hq
        subst hq
        exact ⟨by decide, by decide⟩

/-- Characters of a serialized member are clean-safe. -/
theorem serMember_cleanSafe (m : String × Atom)
    (hk : safeStrB m.1 = true) (ha : safeAtomB m.2 = true) :
    ∀ c ∈ serMember m, cleanSafe c := by
  intro c hc
  unfold serMember at hc
  rcases List.mem_cons.mp hc with rfl | hm
  · exact ⟨by decide, by decide⟩
  · rcases List.mem_append.mp hm with hd | hq
    · obtain ⟨_, _, h3, h4⟩ := safeCharB_spec (List.all_eq_true.mp hk c hd)
      exact ⟨h3, h4⟩
    · rcases List.mem_cons.mp hq with rfl | hq2
      · exact ⟨by decide, by decide⟩
      · rcases List.mem_cons.mp hq2 with rfl | hq3
        · exact ⟨by decide, by decide⟩
        · exact serAtom_cleanSafe m.2 ha c hq3

/-- Characters of serialized member tails are clean-safe. -/
theorem serMembersRest_cleanSafe :
    ∀ ms : RecF, (∀ m ∈ ms, safeStrB m.1 = true ∧ safeAtomB m.2 = true) →
      ∀ c ∈ serMembersRest ms, cleanSafe c := by
  intro ms
  induction ms with
  | nil => intro _ c hc; cases hc
  | cons m ms' ih =>
    intro hsafe c hc
    unfold serMembersRest at hc
    rcases List.mem_cons.mp hc with rfl | hm
    · exact ⟨by decide, by decide⟩
    · rcases List.mem_append.mp hm with hd | hq
      · obtain ⟨hk, ha⟩ := hsafe m (List.mem_cons_self m ms')
        exact serMember_cleanSafe m hk ha c hd
      · exact ih (fun x hx => hsafe x (List.mem_cons_of_mem m hx)) c hq

/-- Characters of a serialized record are clean-safe. -/
theorem serRec_cleanSafe (r : RecF) (hsafe : safeRecB r = true) :
    ∀ c ∈ serRec r, cleanSafe c := by
  cases r with
  | nil => intro c hc; fin_cases hc <;> exact ⟨by decide, by decide⟩
  | cons m ms =>
    intro c hc
    unfold serRec at hc
    obtain ⟨hk, ha⟩ := safeRecB_spec hsafe m (List.mem_cons_self m ms)
    rcases List.mem_append.mp hc with hl | hr
    · rcases List.mem_cons.mp hl with rfl | hm
      · exact ⟨by decide, by decide⟩
      · rcases List.mem_append.mp hm with hd | hq
        · exact serMember_cleanSafe m hk ha c hd
        · exact serMembersRest_cleanSafe ms
            (fun x hx => safeRecB_spec hsafe x (List.mem_cons_of_mem m hx)) c hq
    · rw [List.mem_singleton] at hr
      subst hr
      exact ⟨by decide, by decide⟩

/-- Characters of serialized element tails are clean-safe. -/
theorem serRecsRest_cleanSafe :
    ∀ rs : List RecF, (∀ r ∈ rs, safeRecB r = true) →
      ∀ c ∈ serRecsRest rs, cleanSafe c := by
  intro rs
  induction rs with
  | nil => intro _ c hc; cases hc
  | cons r rs' ih =>
    intro hsafe c hc
    unfold serRecsRest at hc
    rcases List.mem_cons.mp hc with rfl | hm
    · exact ⟨by decide, by decide⟩
    · rcases List.mem_append.mp hm with hd | hq
      · exact serRec_cleanSafe r (hsafe r (List.mem_cons_self r rs')) c hd
      · exact ih (fun x hx => hsafe x (List.mem_cons_of_mem r hx)) c hq

/-- Characters of serialized element lists are clean-safe. -/
theorem serRecs_cleanSafe :
    ∀ rs : List RecF, (∀ r ∈ rs, safeRecB r = true) →
      ∀ c ∈ serRecs rs, cleanSafe c := by
  intro rs hsafe c hc
  cases rs with
  | nil => cases hc
  | cons r rs' =>
    unfold serRecs at hc
    rcases List.mem_append.mp hc with hd | hq
    · exact serRec_cleanSafe r (hsafe r (List.mem_cons_self r rs')) c hd
    · exact serRecsRest_cleanSafe rs'
        (fun x hx => hsafe x (List.mem_cons_of_mem r hx)) c hq

/-- Characters of the truncated payload are clean-safe. -/
theorem cut_cleanSafe (l : List RecF) (k : Nat)
    (hsafe : ∀ r ∈ l, safeRecB r = true) :
    ∀ c ∈ cutAfterComma l k, cleanSafe c := by
  intro c hc
  unfold cutAfterComma at hc
  rcases List.mem_append.mp hc with hl | hr
  · rcases List.mem_append.mp hl with hp | hs
    · fin_cases hp <;> exact ⟨by decide, by decide⟩
    · exact serRecs_cleanSafe (l.take k)
        (fun x hx => hsafe x (List.take_subset k l hx)) c hs
  · rw [List.mem_singleton] at hr
    subst hr
    exact ⟨by decide, by decide⟩

/-- The case-insensitive search fails when the text never matches the
pattern head `<`. -/
theorem findCi_none (s : List Char) (p' : List Char)
    (hs : ∀ c ∈ s, c.toLower ≠ '<') : findCi s ('<' :: p') = none := by
  unfold findCi
  suffices h : ∀ i, findCiAux s ('<' :: p') i = none from h 0
  induction s with
  | nil => intro i; rfl
  | cons c cs ih =>
    intro i
    have hc : ciEq c '<' = false := by
      unfold ciEq
      simp only [decide_eq_false_iff_not]
      intro hx
      exact hs c (List.mem_cons_self c cs) (by rw [hx]; rfl)
    unfold findCiAux
    rw [show isCiPrefix ('<' :: p') (c :: cs) = false by
      unfold isCiPrefix
      rw [hc, Bool.false_and]]
    simp only [Bool.false_eq_true, if_false]
    exact ih (fun x hx => hs x (List.mem_cons_of_mem c hx)) (i + 1)

/-- The think-tag removal is the identity when no `<` (up to case) occurs. -/
theorem removeThink_id (s : List Char) (hs : ∀ c ∈ s, c.toLower ≠ '<') :
    removeThink s = s := by
  have hci : findCi s thinkOpen = none := findCi_none s _ hs
  unfold removeThink
  cases s.length with
  | zero => rfl
  | succ n => simp [removeThinkAux, hci]

/-- The literal search fails when the text never contains the pattern head. -/
theorem findSub_none (s : List Char) (p' : List Char)
    (hs : ∀ c ∈ s, c ≠ '\x60') : findSub s ('\x60' :: p') = none := by
  unfold findSub
  suffices h : ∀ i, findSubAux s ('\x60' :: p') i = none from h 0
  induction s with
  | nil => intro i; rfl
  | cons c cs ih =>
    intro i
    have hc : (('\x60' : Char) == c) = false :=
      beq_eq_false_iff_ne.mpr (fun hx => hs c (List.mem_cons_self c cs) hx.symm)
    unfold findSubAux
    rw [show List.isPrefixOf ('\x60' :: p') (c :: cs) = false by
      unfold List.isPrefixOf
      rw [hc, Bool.false_and]]
    simp only [Bool.false_eq_true, if_false]
    exact ih (fun x hx => hs x (List.mem_cons_of_mem c hx)) (i + 1)

/-- Fence removal is the identity when no backtick occurs. -/
theorem replaceAll_fence_id (s : List Char) (p' : List Char)
    (hs : ∀ c ∈ s, c ≠ '\x60') : replaceAll s ('\x60' :: p') = s := by
  have hf : findSub s ('\x60' :: p') = none := findSub_none s p' hs
  unfold replaceAll
  cases s.length with
  | zero => rfl
  | succ n => simp [replaceAllAux, hf]

/-- Trim is the identity when the first and last characters are not
whitespace. -/
theorem jsTrim_id (s : List Char)
    (h1 : ∀ c, s.head? = some c → jsWs c = false)
    (h2 : ∀ c, s.getLast? = some c → jsWs c = false) : jsTrim s = s := by
  unfold jsTrim
  have hd : s.dropWhile jsWs = s := by
    cases s with
    | nil => rfl
    | cons c cs =>
      rw [List.dropWhile_cons, h1 c rfl]
      simp
  rw [hd]
  have hrev : s.reverse.dropWhile jsWs = s.reverse := by
    cases hr : s.reverse with
    | nil => rfl
    | cons c cs =>
      have hlast : s.getLast? = some c := by
        rw [← List.head?_reverse, hr]
        rfl
      rw [List.dropWhile_cons, h2 c hlast]
      simp
  rw [hrev, List.reverse_reverse]

/-- The cleaning pass is the identity on clean-safe text with non-whitespace
ends. -/
theorem cleanContent_id (s : List Char)
    (hs : ∀ c ∈ s, cleanSafe c)
    (hh : ∀ c, s.head? = some c → jsWs c = false)
    (hl : ∀ c, s.getLast? = some c → jsWs c = false) : cleanContent s = s := by
  unfold cleanContent
  rw [removeThink_id s (fun c hc => (hs c hc).1)]
  rw [show fenceJson = '\x60' :: ['\x60', '\x60', 'j', 's', 'o', 'n'] from rfl,
    replaceAll_fence_id s _ (fun c hc => (hs c hc).2)]
  rw [show fence3 = '\x60' :: ['\x60', '\x60'] from rfl,
    replaceAll_fence_id s _ (fun c hc => (hs c hc).2)]
  exact jsTrim_id s hh hl

/-- A serialized record ends in a closing brace. -/
theorem serRec_last (r : RecF) : ∃ B, serRec r = B ++ ['\x7d'] := by
  cases r with
  | nil => exact ⟨['\x7b'], rfl⟩
  | cons m ms => exact ⟨'\x7b' :: (serMember m ++ serMembersRest ms), rfl⟩

/-- A nonempty serialized element tail ends in a closing brace. -/
theorem serRecsRest_last (rs : List RecF) (h : rs ≠ []) :
    ∃ B, serRecsRest rs = B ++ ['\x7d'] := by
  induction rs with
  | nil => exact absurd rfl h
  | cons r rs' ih =>
    cases rs' with
    | nil =>
      obtain ⟨B, hB⟩ := serRec_last r
      refine ⟨',' :: B, ?_⟩
      show ',' :: (serRec r ++ serRecsRest []) = _
      rw [hB]
      simp [serRecsRest]
    | cons r2 rs'' =>
      obtain ⟨B, hB⟩ := ih (by simp)
      refine ⟨',' :: (serRec r ++ B), ?_⟩
      show ',' :: (serRec r ++ serRecsRest (r2 :: rs'')) = _
      rw [hB]
      simp

/-- A nonempty serialized element list ends in a closing brace. -/
theorem serRecs_last (rs : List RecF) (h : rs ≠ []) :
    ∃ B, serRecs rs = B ++ ['\x7d'] := by
  cases rs with
  | nil => exact absurd rfl h
  | cons r rs' =>
    cases rs' with
    | nil =>
      obtain ⟨B, hB⟩ := serRec_last r
      refine ⟨B, ?_⟩
      show serRec r ++ serRecsRest [] = _
      rw [hB]
      simp [serRecsRest]
    | cons r2 rs'' =>
      obtain ⟨B, hB⟩ := serRecsRest_last (r2 :: rs'') (by simp)
      refine ⟨serRec r ++ B, ?_⟩
      show serRec r ++ serRecsRest (r2 :: rs'') = _
      rw [hB]
      simp

/-- A nonempty serialized element list has at least two characters. -/
theorem serRecs_len_ge (rs : List RecF) (h : rs ≠ []) :
    2 ≤ (serRecs rs).length := by
  cases rs with
  | nil => exact absurd rfl h
  | cons r rs' =>
    have h1 : recFuel r ≤ (serRec r).length := recFuel_le_len r
    have h2 : (serRecs (r :: rs')).length =
        (serRec r).length + (serRecsRest rs').length := by
      show (serRec r ++ serRecsRest rs').length = _
      simp
    unfold recFuel at h1
    omega

/-- Cons-normal form of the truncated payload. -/
theorem cut_cons (l : List RecF) (k : Nat) :
    cutAfterComma l k = '\x7b' :: '"' :: 'i' :: 't' :: 'e' :: 'm' :: 's' ::
      '"' :: ':' :: '[' :: (serRecs (l.take k) ++ [',']) := by
  simp [cutAfterComma, preChars]

/-- The first `\x7b` of the truncated payload is at index 0. -/
theorem cut_idx_brace (l : List RecF) (k : Nat) :
    idxOfChar (cutAfterComma l k) '\x7b' 0 = some 0 := by
  rw [cut_cons]
  rfl

/-- The needle `"items"` occurs first at index 1 of the truncated payload. -/
theorem cut_findSub_items (l : List RecF) (k : Nat) :
    findSub (cutAfterComma l k) itemsNeedle = some 1 := by
  rw [cut_cons]
  rfl

/-- The first `[` at or after index 1 of the truncated payload is at 9. -/
theorem cut_idx_bracket (l : List RecF) (k : Nat) :
    idxOfChar (cutAfterComma l k) '[' 1 = some 9 := by
  rw [cut_cons]
  rfl

/-- Maximum of a list of naturals containing an upper bound. -/
theorem foldl_max_eq (a : Nat) :
    ∀ (xs : List Nat) (x : Nat), x ≤ a → (∀ b ∈ xs, b ≤ a) →
      (x = a ∨ a ∈ xs) → xs.foldl max x = a := by
  intro xs
  induction xs with
  | nil =>
    intro x _ _ hm
    rcases hm with rfl | h
    · rfl
    · cases h
  | cons y ys ih =>
    intro x hx hb hm
    show ys.foldl max (max x y) = a
    have hy : y ≤ a := hb y (List.mem_cons_self y ys)
    refine ih (max x y) (by omega) (fun b hbm => hb b (List.mem_cons_of_mem y hbm)) ?_
    rcases hm with rfl | hmem
    · exact Or.inl (Nat.max_eq_left hy)
    · rcases List.mem_cons.mp hmem with rfl | h
      · exact Or.inl (Nat.max_eq_right hx)
      · exact Or.inr h

/-- `max?` of a list of naturals that contains its upper bound. -/
theorem max?_eq_of (l : List Nat) (a : Nat) (ha : a ∈ l)
    (hub : ∀ b ∈ l, b ≤ a) : l.max? = some a := by
  cases l with
  | nil => cases ha
  | cons x xs =>
    show some (xs.foldl max x) = some a
    refine congrArg some (foldl_max_eq a xs x (hub x (List.mem_cons_self x xs))
      (fun b hb => hub b (List.mem_cons_of_mem x hb)) ?_)
    rcases List.mem_cons.mp ha with h | h
    · exact Or.inl h.symm
    · exact Or.inr h

/-- Decomposition of the truncated payload around its final `\x7d,`. -/
theorem cut_split (l : List RecF) (k : Nat) (h1 : 1 ≤ k) (h2 : k < l.length) :
    ∃ A : List Char, cutAfterComma l k = A ++ ['\x7d', ','] ∧
      A.length = (cutAfterComma l k).length - 2 ∧
      A ++ ['\x7d'] = preChars ++ serRecs (l.take k) := by
  have hne : l.take k ≠ [] := by
    rw [Ne, List.take_eq_nil_iff]
    push_neg
    refine ⟨by omega, ?_⟩
    rintro rfl
    simp at h2
  obtain ⟨B, hB⟩ := serRecs_last (l.take k) hne
  refine ⟨preChars ++ B, ?_, ?_, ?_⟩
  · unfold cutAfterComma
    rw [hB]
    simp
  · unfold cutAfterComma
    rw [hB]
    simp
    omega
  · rw [hB]
    simp

/-- The last `\x7d,` of the truncated payload is two before its end. -/
theorem cut_lastIdx (l : List RecF) (k : Nat) (h1 : 1 ≤ k)
    (h2 : k < l.length) :
    lastIdx (cutAfterComma l k) braceComma =
      some ((cutAfterComma l k).length - 2) := by
  obtain ⟨A, hA, hlen, _⟩ := cut_split l k h1 h2
  unfold lastIdx
  apply max?_eq_of
  · unfold occs
    rw [List.mem_filter]
    constructor
    · rw [List.mem_range]
      omega
    · rw [← hlen, hA, List.drop_left]
      rfl
  · intro b hb
    unfold occs at hb
    rw [List.mem_filter] at hb
    have hpre := List.isPrefixOf_iff_prefix.mp hb.2
    have hble := hpre.length_le
    rw [List.length_drop] at hble
    have hlb : 2 ≤ (cutAfterComma l k).length - b := by
      have : braceComma.length = 2 := rfl
      omega
    have hb2 : b + 2 ≤ (cutAfterComma l k).length := by
      rcases le_or_lt (b + 2) (cutAfterComma l k).length with h | h
      · exact h
      · omega
    omega

/-- The truncated payload has at least 13 characters. -/
theorem cut_len_ge (l : List RecF) (k : Nat) (h1 : 1 ≤ k)
    (h2 : k < l.length) : 13 ≤ (cutAfterComma l k).length := by
  have hne : l.take k ≠ [] := by
    rw [Ne, List.take_eq_nil_iff]
    push_neg
    refine ⟨by omega, ?_⟩
    rintro rfl
    simp at h2
  have hs := serRecs_len_ge (l.take k) hne
  unfold cutAfterComma
  simp [preChars]
  omega


/-- Cutting the truncated payload at its last `\x7d` and closing the array
reconstitutes the canonical payload of the first `k` elements. -/
theorem cut_candidate (l : List RecF) (k : Nat) (h1 : 1 ≤ k)
    (h2 : k < l.length) :
    jsSubstring (cutAfterComma l k) 0 ((cutAfterComma l k).length - 2 + 1) ++
        [']', '\x7d'] = payloadChars (l.take k) := by
  obtain ⟨A, hA, hlen, hfull⟩ := cut_split l k h1 h2
  unfold jsSubstring
  rw [List.drop_zero, ← hlen]
  have htake : (cutAfterComma l k).take (A.length + 1) = A ++ ['\x7d'] := by
    rw [hA, show A ++ ['\x7d', ','] = (A ++ ['\x7d']) ++ [','] by simp]
    exact List.take_left' (by simp)
  rw [htake, hfull]
  unfold payloadChars
  simp

/-- Serialization of element tails distributes over append. -/
theorem serRecsRest_append (xs ys : List RecF) :
    serRecsRest (xs ++ ys) = serRecsRest xs ++ serRecsRest ys := by
  induction xs with
  | nil => simp [serRecsRest]
  | cons r xs' ih =>
    show ',' :: (serRec r ++ serRecsRest (xs' ++ ys)) =
      (',' :: (serRec r ++ serRecsRest xs')) ++ serRecsRest ys
    rw [ih]
    simp

/-- Serialization of a nonempty split element list inserts the comma. -/
theorem serRecs_append (xs ys : List RecF) (hx : xs ≠ []) (hy : ys ≠ []) :
    serRecs (xs ++ ys) = serRecs xs ++ ',' :: serRecs ys := by
  cases xs with
  | nil => exact absurd rfl hx
  | cons x xs' =>
    cases ys with
    | nil => exact absurd rfl hy
    | cons y ys' =>
      have h1 : serRecs ((x :: xs') ++ (y :: ys')) =
          serRec x ++ serRecsRest (xs' ++ (y :: ys')) := rfl
      rw [h1, serRecsRest_append]
      have h2 : serRecsRest (y :: ys') = ',' :: serRecs (y :: ys') := rfl
      rw [h2]
      have h3 : serRecs (x :: xs') = serRec x ++ serRecsRest xs' := rfl
      rw [h3]
      simp

/-- Truncating the full payload at `cutLen` yields the comma-terminated cut. -/
theorem payload_take (l : List RecF) (k : Nat) (h1 : 1 ≤ k)
    (h2 : k < l.length) :
    (payloadChars l).take (cutLen l k) = cutAfterComma l k := by
  have hx : l.take k ≠ [] := by
    rw [Ne, List.take_eq_nil_iff]
    push_neg
    refine ⟨by omega, ?_⟩
    rintro rfl
    simp at h2
  have hy : l.drop k ≠ [] := by
    rw [Ne, List.drop_eq_nil_iff]
    omega
  have hsplit : serRecs l = serRecs (l.take k) ++ ',' :: serRecs (l.drop k) := by
    conv_lhs => rw [← List.take_append_drop k l]
    exact serRecs_append _ _ hx hy
  have key : payloadChars l =
      cutAfterComma l k ++ (serRecs (l.drop k) ++ [']', '\x7d']) := by
    unfold payloadChars cutAfterComma
    rw [hsplit]
    simp
  rw [key]
  apply List.take_left'
  unfold cutAfterComma cutLen
  simp
  omega

/-- On the comma-terminated cut, the sanitizer repairs to the first `k`
elements. -/
theorem cleanAndParseJSON_cut (l : List RecF) (k : Nat) (h1 : 1 ≤ k)
    (h2 : k < l.length) (hsafe : ∀ r ∈ l, safeRecB r = true) :
    cleanAndParseJSON (cutAfterComma l k) =
      some (.obj [("items", .arr ((l.take k).map recJ))]) := by
  have hclean : cleanContent (cutAfterComma l k) = cutAfterComma l k := by
    apply cleanContent_id
    · exact cut_cleanSafe l k hsafe
    · intro c hc
      rw [cut_cons, List.head?_cons] at hc
      injection hc with h
      rw [← h]
      decide
    · intro c hc
      have hlast : (cutAfterComma l k).getLast? = some ',' := by
        unfold cutAfterComma
        exact List.getLast?_concat _
      rw [hlast] at hc
      injection hc with h
      rw [← h]
      decide
  have hnone := jsonParse_cut_none l k h1 h2 hsafe
  have hguard : 9 < (cutAfterComma l k).length - 2 := by
    have := cut_len_ge l k h1 h2
    omega
  have hcand := cut_candidate l k h1 h2
  have hsafe' : ∀ r ∈ l.take k, safeRecB r = true :=
    fun r hr => hsafe r (List.take_subset k l hr)
  have hpay := jsonParse_payload (l.take k) hsafe'
  simp only [cleanAndParseJSON, hclean, hnone, cut_idx_brace, cut_findSub_items,
    cut_idx_bracket, cut_lastIdx l k h1 h2]
  rw [if_pos hguard, hcand, hpay]

/-- Three one-field records, a concrete `items` payload. -/
def exRecs3 : List RecF :=
  [[("a", Atom.anum 1)], [("b", Atom.anum 2)], [("c", Atom.anum 3)]]

/-- Counterexample to C1 as stated: the serialized payload
`\x7b"items":[\x7b"a":1\x7d,\x7b"b":2\x7d,\x7b"c":3\x7d]\x7d` truncated to 25
characters ends immediately after the closing brace of its second element — a
truncation point after the end of element 2 and before the start of element 3
— yet `cleanAndParseJSON` repairs it to an object holding only the FIRST
element, not the first two: the Case-A repair cuts at the last `\x7d,`, which
here is the separator between elements 1 and 2, and its success preempts the
Case-B repair that would have kept element 2. -/
theorem caseA_cut_drops_completed_element :
    (payloadChars exRecs3).take 25 =
      ("\x7b\"items\":[\x7b\"a\":1\x7d,\x7b\"b\":2\x7d").data ∧
    cleanAndParseJSON ((payloadChars exRecs3).take 25) =
      some (.obj [("items", .arr [.obj [("a", .num 1)]])]) ∧
    (exRecs3.take 2).map recJ =
      [.obj [("a", .num 1)], .obj [("b", .num 2)]] := by
  refine ⟨rfl, ?_, rfl⟩
  rfl

/-- C1 (amended): for a canonically serialized payload
`\x7b"items":[r1,...,rN]\x7d` of escape-free flat records, truncated exactly
after the comma separating element k from element k+1 (1 ≤ k < N), the
sanitizer `cleanAndParseJSON` returns the object whose `items` array is
exactly the first k elements — no partial element and no fabricated value.
(At the other truncation points of the original claim the repair can drop a
complete element, see the counterexample.) -/
theorem truncation_repair_after_comma (l : List RecF) (k : Nat) (h1 : 1 ≤ k)
    (h2 : k < l.length) (hsafe : ∀ r ∈ l, safeRecB r = true) :
    cleanAndParseJSON ((payloadChars l).take (cutLen l k)) =
      some (.obj [("items", .arr ((l.take k).map recJ))]) := by
  rw [payload_take l k h1 h2]
  exact cleanAndParseJSON_cut l k h1 h2 hsafe

/-- Witness: the three-record payload truncated after the second separating
comma repairs to exactly its first two elements. -/
theorem truncation_repair_after_comma_witness :
    cleanAndParseJSON ((payloadChars exRecs3).take (cutLen exRecs3 2)) =
      some (.obj [("items", .arr ((exRecs3.take 2).map recJ))]) :=
  truncation_repair_after_comma exRecs3 2 (by decide) (by decide) (by decide)

end WattWise
